import Mathlib

/-!
Verification of the simulation engine (`simulation.py`) of the
SimulationDecision repository, against its natural-language specification.

The engine is embedded shallowly:

* Python `float` values are modelled as exact rationals (`ℚ`); the claims
  under scrutiny are about exact arithmetic identities, bounds clamping,
  update ordering and error behaviour, none of which depend on rounding.
* `math.exp` (used only by the `sigmoid` transfer function) is not a
  rational function, so every engine definition is parameterised by an
  arbitrary function `exp : ℚ → ℚ` standing for it; no claim depends on
  its values.  Python's `OverflowError` guard cannot fire for exact
  rationals, so the `try/except` around the exponential is modelled by
  the plain expression.
* Python dictionaries (`self._state.values`, `self._variable_metadata`,
  `model.entities`, `entity.components`) are modelled as association
  lists with first-match lookup; Python guarantees their keys are
  distinct, which theorems assume through explicit `Nodup` hypotheses
  where the reasoning needs it.
* The engine's `_variable_metadata` index stores shared references into
  the deep-copied model, and every mutator updates the model and the
  index in lockstep (`component.influences[i] = new_inf` together with
  `meta["influences"][i] = new_inf`), so the index never diverges from
  the model; it is therefore embedded as a view derived from the model
  (`varMetadata`).
* Exceptions are modelled by `Except SimError` for the setter methods
  and by `Option` for derivative evaluation / stepping (where the only
  reachable exception is `ZeroDivisionError` from the `division`
  transfer function).
-/

/-- Influence kinds, the `kind` literal of `InfluenceModel` in `models.py`. -/
inductive Kind where
  | positive
  | negative
  | decay
  | ratio
deriving DecidableEq, Repr

/-- Transfer-function names, the `function` literal of `InfluenceModel`. -/
inductive TransferFunction where
  | linear
  | sigmoid
  | threshold
  | division
deriving DecidableEq, Repr

/-- Component types, the `type` literal of `ComponentModel` in
`models.py` (`state` = integrated, `computed` = algebraic, `constant` =
fixed); pydantic validation admits exactly these three strings. -/
inductive CompType where
  | state
  | computed
  | constant
deriving DecidableEq, Repr

/-- `InfluenceModel` from `models.py`: a directed influence edge. -/
structure InfluenceModel where
  from_ : String
  coef : ℚ
  kind : Kind
  function : TransferFunction
  enabled : Bool
deriving DecidableEq, Repr

/-- `ComponentModel` from `models.py`: one measurable variable. -/
structure ComponentModel where
  type : CompType
  initial : ℚ
  min : Option ℚ
  max : Option ℚ
  influences : List InfluenceModel
deriving DecidableEq, Repr

/-- `EntityModel` from `models.py`: an ordered dictionary of components. -/
structure EntityModel where
  components : List (String × ComponentModel)
deriving DecidableEq, Repr

/-- `SimulationModel` from `models.py`: simulation configuration. -/
structure SimulationModel where
  dt : ℚ
  steps : Nat
deriving DecidableEq, Repr

/-- `SystemModel` from `models.py`: the root aggregate. -/
structure SystemModel where
  entities : List (String × EntityModel)
  simulation : SimulationModel
deriving DecidableEq, Repr

section TransferFunctions

variable (exp : ℚ → ℚ)

/-- `linear(x, coef)` from `simulation.py`: `coef * x`. -/
def linear (x coef : ℚ) : ℚ := coef * x

/-- `sigmoid(x, coef)` from `simulation.py`:
`coef * (1 / (1 + exp(-5*(x-0.5))))`, with `math.exp` abstracted as the
parameter `exp` (the `OverflowError` branch is unreachable over `ℚ`). -/
def sigmoid (x coef : ℚ) : ℚ :=
  coef * (1 / (1 + exp (-5 * (x - 0.5))))

/-- `threshold(x, coef, threshold_value=0.5)` from `simulation.py`:
`coef if x > threshold_value else 0.0` (strict inequality). -/
def threshold (x coef : ℚ) (threshold_value : ℚ) : ℚ :=
  if threshold_value < x then coef else 0

/-- `division(x, coef)` from `simulation.py`: `coef / (1.0 + x)`, which
raises `ZeroDivisionError` when `1 + x = 0`; the raise is `none`. -/
def division (x coef : ℚ) : Option ℚ :=
  if 1 + x = 0 then none else some (coef / (1 + x))

/-- Dispatch through `INFLUENCE_FUNCTIONS` (`simulation.py`).  The
`function` field is one of the four literals, so the `.get(..., linear)`
fallback for unknown names is unreachable; the dispatcher is the match.
The `threshold` call uses the default `threshold_value = 0.5`. -/
def applyInfluenceFunction (fn : TransferFunction) (x coef : ℚ) : Option ℚ :=
  match fn with
  | .linear => some (linear x coef)
  | .sigmoid => some (sigmoid exp x coef)
  | .threshold => some (threshold x coef 0.5)
  | .division => division x coef

end TransferFunctions

/-- Errors raised by the engine: the two `ValueError`s of the setter
methods, plus `KeyError` for raw dictionary indexing (unreachable when
the dictionaries are in their invariant shape). -/
inductive SimError where
  | unknownVariable (v : String)
  | noSuchInfluence (target source : String)
  | keyError (k : String)
deriving DecidableEq, Repr

/-- The flat value dictionary `SimulationState.values`. -/
abbrev SimState := List (String × ℚ)

/-- `SimulationState.get(key, default=0.0)`: dictionary lookup with a
`0.0` default. -/
def stateGetD (s : SimState) (key : String) : ℚ :=
  (List.lookup key s).getD 0

/-- Dictionary assignment `self._state[key] = value` for a key already
present: replace the value at `key`, preserving insertion order. -/
def stateSet (s : SimState) (key : String) (value : ℚ) : SimState :=
  s.map (fun p => if p.1 = key then (key, value) else p)

/-- One entry of the `_variable_metadata` index built by
`_initialize_state` (the `influences` field is the component's own
influence list, shared with the model). -/
structure VarMeta where
  type : CompType
  min : Option ℚ
  max : Option ℚ
  influences : List InfluenceModel
  entity : String
  component : String
deriving DecidableEq, Repr

/-- The single loop of `_initialize_state`, which walks every entity and
component and records, per full name `"entity.component"`, both the
initial value (into `_state`) and the metadata entry. -/
def initPairs (m : SystemModel) : List (String × (ℚ × VarMeta)) :=
  m.entities.flatMap (fun p =>
    p.2.components.map (fun q =>
      (p.1 ++ "." ++ q.1,
       (q.2.initial,
        ⟨q.2.type, q.2.min, q.2.max, q.2.influences, p.1, q.1⟩))))

/-- The `_state` dictionary as seeded by `_initialize_state`. -/
def initState (m : SystemModel) : SimState :=
  (initPairs m).map (fun p => (p.1, p.2.1))

/-- The `_variable_metadata` dictionary built by `_initialize_state`. -/
def metaEntries (m : SystemModel) : List (String × VarMeta) :=
  (initPairs m).map (fun p => (p.1, p.2.2))

/-- `self._variable_metadata.get(variable)`. -/
def varMetadata (m : SystemModel) (v : String) : Option VarMeta :=
  List.lookup v (metaEntries m)

/-- A `SimulationEngine` instance: the deep-copied model plus the flat
state; `_variable_metadata` is the derived view `varMetadata`. -/
structure SimulationEngine where
  model : SystemModel
  state : SimState
deriving DecidableEq, Repr

/-- `SimulationEngine.__init__`: deep-copy the model and run
`_initialize_state`. -/
def mkEngine (m : SystemModel) : SimulationEngine :=
  { model := m, state := initState m }

/-- `get_state()`: snapshot of the current values. -/
def get_state (e : SimulationEngine) : SimState := e.state

/-- `get_variables()`: list of all variable names. -/
def get_variables (e : SimulationEngine) : List String :=
  e.state.map Prod.fst

/-- `reset()`: re-run `_initialize_state` on the (possibly mutated)
model; the metadata view is derived, so only the state changes. -/
def reset (e : SimulationEngine) : SimulationEngine :=
  { e with state := initState e.model }

/-- `set_parameter(variable, value)`: unknown-variable check against the
state keys, then the inline bounds clamp, then dictionary assignment.
The metadata indexing `self._variable_metadata[variable]` is a raw
`[]`-access, modelled by the `keyError` branch. -/
def set_parameter (e : SimulationEngine) (v : String) (value : ℚ) :
    Except SimError SimulationEngine :=
  match List.lookup v e.state with
  | none => .error (.unknownVariable v)
  | some _ =>
    match varMetadata e.model v with
    | none => .error (.keyError v)
    | some meta =>
      let value := match meta.min with
        | some lo => max lo value
        | none => value
      let value := match meta.max with
        | some hi => min hi value
        | none => value
      .ok { e with state := stateSet e.state v value }

/-- Replace the first influence whose `from_` field equals `source` by
`f` applied to it, returning `none` when no influence matches.  This is
the shared loop body of `set_influence_coef` and `toggle_influence`
(`for i, inf in enumerate(component.influences): if inf.from_ == source:
... component.influences[i] = new_inf; return`). -/
def replaceFirstInfluence (source : String) (f : InfluenceModel → InfluenceModel) :
    List InfluenceModel → Option (List InfluenceModel)
  | [] => none
  | inf :: rest =>
    if inf.from_ = source then some (f inf :: rest)
    else (replaceFirstInfluence source f rest).map (fun l => inf :: l)

/-- In-place mutation of the value stored at the first occurrence of
key `k` in an association list (Python dict entries are unique, so this
is dictionary-value mutation). -/
def updateFirst {α : Type} (k : String) (f : α → α) :
    List (String × α) → List (String × α)
  | [] => []
  | p :: rest =>
    if p.1 = k then (p.1, f p.2) :: rest
    else p :: updateFirst k f rest

/-- Write a new influence list into `model.entities[en].components[cn]`
(the in-place `component.influences[i] = new_inf` assignments, viewed as
a whole-list update of the located component). -/
def updateInfluences (m : SystemModel) (en cn : String)
    (infs : List InfluenceModel) : SystemModel :=
  { m with
    entities := updateFirst en
      (fun ent => { ent with
        components := updateFirst cn
          (fun c => { c with influences := infs }) ent.components })
      m.entities }

/-- `set_influence_coef(target, source, new_coef)`: metadata lookup,
outer scan of `meta["influences"]` for a matching source, then the raw
dictionary accesses `self.model.entities[meta["entity"]]` and
`entity.components[meta["component"]]`, then first-match replacement of
the influence with a copy carrying the new coefficient; the model and
the metadata view are updated together (they share the list).  Raises
`UnknownVariable` when the target has no metadata entry and
`NoSuchInfluence` when no influence matches. -/
def set_influence_coef (e : SimulationEngine) (target source : String)
    (new_coef : ℚ) : Except SimError SimulationEngine :=
  match varMetadata e.model target with
  | none => .error (.unknownVariable target)
  | some meta =>
    if meta.influences.any (fun inf => inf.from_ = source) then
      match List.lookup meta.entity e.model.entities with
      | none => .error (.keyError meta.entity)
      | some entity =>
        match List.lookup meta.component entity.components with
        | none => .error (.keyError meta.component)
        | some component =>
          match replaceFirstInfluence source
              (fun inf => { inf with coef := new_coef })
              component.influences with
          | none => .error (.noSuchInfluence target source)
          | some newInfs =>
            .ok { e with
              model := updateInfluences e.model meta.entity meta.component newInfs }
    else .error (.noSuchInfluence target source)

/-- `toggle_influence(target, source, enabled)`: metadata lookup, the
raw dictionary accesses for entity and component, then first-match
replacement of the influence with a copy carrying the new enabled flag
(no pre-scan of the metadata list, unlike `set_influence_coef`). -/
def toggle_influence (e : SimulationEngine) (target source : String)
    (enabled : Bool) : Except SimError SimulationEngine :=
  match varMetadata e.model target with
  | none => .error (.unknownVariable target)
  | some meta =>
    match List.lookup meta.entity e.model.entities with
    | none => .error (.keyError meta.entity)
    | some entity =>
      match List.lookup meta.component entity.components with
      | none => .error (.keyError meta.component)
      | some component =>
        match replaceFirstInfluence source
            (fun inf => { inf with enabled := enabled })
            component.influences with
        | none => .error (.noSuchInfluence target source)
        | some newInfs =>
          .ok { e with
            model := updateInfluences e.model meta.entity meta.component newInfs }

/-- `get_influences_for(variable)`: plain description of each influence
on the variable, empty for an unknown variable (non-failing lookup). -/
def get_influences_for (e : SimulationEngine) (v : String) :
    List (String × ℚ × Kind × TransferFunction × Bool) :=
  match varMetadata e.model v with
  | none => []
  | some meta =>
    meta.influences.map (fun inf =>
      (inf.from_, inf.coef, inf.kind, inf.function, inf.enabled))

/-- Python's `variable.split(".")` at the character level (structural
recursion so that the kernel can evaluate it). -/
def splitDots : List Char → List (List Char)
  | [] => [[]]
  | c :: rest =>
    if c = '.' then [] :: splitDots rest
    else
      match splitDots rest with
      | [] => [c] :: []
      | g :: gs => (c :: g) :: gs

/-- `variable.split(".")[-1]`: the bare component name of a
fully-qualified variable name. -/
def lastComponent (s : String) : String :=
  String.mk ((splitDots s.data).getLastD [])

/-- Python's `"." in source_var`: the separator is a single character,
so substring containment is character membership. -/
def containsDot (s : String) : Bool := s.data.contains '.'

/-- Source-value resolution inside `_compute_derivative`: the literal
`"self"` or the target's own bare name resolve to the target's current
value (a raw `self._state[variable]` access — the target is always a
state key when this runs, modelled by the defaulting lookup); a dotted
name is looked up directly with default `0.0`; a bare name is qualified
with the target's entity and looked up with default `0.0`. -/
def resolveSource (s : SimState) (v : String) (meta : VarMeta)
    (source_var : String) : ℚ :=
  if source_var = "self" ∨ source_var = lastComponent v then
    stateGetD s v
  else if containsDot source_var then
    stateGetD s source_var
  else
    stateGetD s (meta.entity ++ "." ++ source_var)

/-- The kind modifier of `_compute_derivative`: `negative` forces the
contribution to `-abs(contribution)`; `decay` replaces it by
`coef * current` (the target's own current value); `ratio` replaces it
by `coef * (source/current)` guarded by `current != 0`; any other kind
(`positive`) leaves the transfer-function result unchanged. -/
def kindModifier (s : SimState) (v : String) (inf : InfluenceModel)
    (source_value contribution : ℚ) : ℚ :=
  match inf.kind with
  | .negative => -|contribution|
  | .decay => inf.coef * stateGetD s v
  | .ratio =>
    if stateGetD s v ≠ 0 then inf.coef * (source_value / stateGetD s v)
    else 0
  | .positive => contribution

section Engine

variable (exp : ℚ → ℚ)

/-- The contribution of one (enabled) influence inside
`_compute_derivative`: resolve the source, apply the transfer function
(which can raise through `division`), then apply the kind modifier. -/
def influenceTerm (s : SimState) (v : String) (meta : VarMeta)
    (inf : InfluenceModel) : Option ℚ :=
  let source_value := resolveSource s v meta inf.from_
  (applyInfluenceFunction exp inf.function source_value inf.coef).map
    (fun contribution => kindModifier s v inf source_value contribution)

/-- The accumulation loop of `_compute_derivative`: disabled influences
are skipped (`continue`), enabled ones contribute `influenceTerm`; a
raise anywhere aborts the whole computation. -/
def influencesSum (s : SimState) (v : String) (meta : VarMeta) :
    List InfluenceModel → Option ℚ
  | [] => some 0
  | inf :: rest =>
    if inf.enabled then
      match influenceTerm exp s v meta inf with
      | none => none
      | some contribution =>
        (influencesSum s v meta rest).map (fun d => contribution + d)
    else influencesSum s v meta rest

/-- `_compute_derivative(variable)` given the variable's metadata entry. -/
def computeDerivAux (s : SimState) (v : String) (meta : VarMeta) : Option ℚ :=
  influencesSum exp s v meta meta.influences

/-- `_compute_derivative(variable)`: the initial
`self._variable_metadata[variable]` raw access (`none` on a missing
key, which cannot happen for the keys `step` iterates). -/
def compute_derivative (e : SimulationEngine) (v : String) : Option ℚ :=
  match varMetadata e.model v with
  | none => none
  | some meta => computeDerivAux exp e.state v meta

end Engine

/-- `_apply_bounds(variable, value)` given the variable's metadata:
clamp below by `min` then above by `max`, whichever are present. -/
def applyBounds (meta : VarMeta) (value : ℚ) : ℚ :=
  let value := match meta.min with
    | some lo => max lo value
    | none => value
  match meta.max with
  | some hi => min hi value
  | none => value

section Stepper

variable (exp : ℚ → ℚ)

/-- Phase 1 of `step`: walk `self._variable_metadata.items()` and record
`derivatives[variable] = self._compute_derivative(variable)` for every
`state` and `computed` variable (the method's own metadata lookup finds
exactly the iterated entry, dictionary keys being unique); constants are
skipped.  A raise in any derivative aborts the step. -/
def derivPhase (s : SimState) :
    List (String × VarMeta) → Option (List (String × ℚ))
  | [] => some []
  | p :: rest =>
    match p.2.type with
    | .state =>
      match computeDerivAux exp s p.1 p.2 with
      | none => none
      | some d => (derivPhase s rest).map (fun l => (p.1, d) :: l)
    | .computed =>
      match computeDerivAux exp s p.1 p.2 with
      | none => none
      | some d => (derivPhase s rest).map (fun l => (p.1, d) :: l)
    | .constant => derivPhase s rest

end Stepper

/-- Phase 2 of `step`: from the pre-step state and the stored
derivatives, build `new_values` — `current + dt * derivative` for
`state` variables, `current + derivative` for `computed` variables
(both clamped by `_apply_bounds`), nothing for constants.  The raw
accesses `self._state[variable]` and `derivatives[variable]` are
modelled by the defaulting lookups (their keys are present whenever
this runs). -/
def phase2Values (s : SimState) (dt : ℚ) (derivatives : List (String × ℚ)) :
    List (String × VarMeta) → List (String × ℚ)
  | [] => []
  | p :: rest =>
    match p.2.type with
    | .state =>
      (p.1, applyBounds p.2 (stateGetD s p.1 + dt * stateGetD derivatives p.1)) ::
        phase2Values s dt derivatives rest
    | .computed =>
      (p.1, applyBounds p.2 (stateGetD s p.1 + stateGetD derivatives p.1)) ::
        phase2Values s dt derivatives rest
    | .constant => phase2Values s dt derivatives rest

/-- Phase 3 of `step`: write every new value into the state dictionary. -/
def commitValues (s : SimState) (new_values : List (String × ℚ)) : SimState :=
  new_values.foldl (fun st p => stateSet st p.1 p.2) s

section Stepper2

variable (exp : ℚ → ℚ)

/-- `step(dt)` with the time step already resolved: the three phases. -/
def stepE (e : SimulationEngine) (dt : ℚ) : Option SimulationEngine :=
  match derivPhase exp e.state (metaEntries e.model) with
  | none => none
  | some derivatives =>
    some { e with
      state := commitValues e.state
        (phase2Values e.state dt derivatives (metaEntries e.model)) }

/-- `step(dt=None)`: default the time step from the model, then step. -/
def step (e : SimulationEngine) (dtOpt : Option ℚ) : Option SimulationEngine :=
  stepE exp e (dtOpt.getD e.model.simulation.dt)

/-- The stepping loop of `run`: perform `n` steps, returning the final
engine and the list of post-step snapshots in order. -/
def runFrom (dt : ℚ) : Nat → SimulationEngine → Option (SimulationEngine × List SimState)
  | 0, e => some (e, [])
  | Nat.succ n, e =>
    match stepE exp e dt with
    | none => none
    | some e1 =>
      match runFrom dt n e1 with
      | none => none
      | some (ef, hs) => some (ef, e1.state :: hs)

end Stepper2

/-- `SimulationResult` from `simulation.py`; the free-form metadata
dictionary `{steps, dt, total_time}` is modelled by the three `md_`
fields. -/
structure SimulationResult where
  history : List SimState
  time_points : List ℚ
  final_state : SimState
  md_steps : Nat
  md_dt : ℚ
  md_total_time : ℚ
deriving DecidableEq, Repr

section Runner

variable (exp : ℚ → ℚ)

/-- `run(steps=None, dt=None)`: default the counts from the model,
record the initial state at time `0`, then append each post-step
snapshot and its time `(i+1)*dt`; the result bundles history, time
points, final state and metadata.  The per-step `callback` is a pure
side channel with no effect on the computation and is not modelled.
The pair also returns the engine, which the Python method leaves
mutated to its final state. -/
def run (e : SimulationEngine) (stepsOpt : Option Nat) (dtOpt : Option ℚ) :
    Option (SimulationEngine × SimulationResult) :=
  let steps := stepsOpt.getD e.model.simulation.steps
  let dt := dtOpt.getD e.model.simulation.dt
  match runFrom exp dt steps e with
  | none => none
  | some (ef, hs) =>
    some (ef,
      { history := e.state :: hs,
        time_points := 0 :: (List.range steps).map (fun i => ((i : ℚ) + 1) * dt),
        final_state := ef.state,
        md_steps := steps,
        md_dt := dt,
        md_total_time := (steps : ℚ) * dt })

/-- One externally visible engine operation, for statements quantifying
over arbitrary call sequences. -/
inductive EngineOp where
  | setParam (v : String) (x : ℚ)
  | setCoef (target source : String) (c : ℚ)
  | toggle (target source : String) (b : Bool)
  | doStep (dtOpt : Option ℚ)

/-- Apply one operation; a raised exception is `none`. -/
def applyOp (e : SimulationEngine) : EngineOp → Option SimulationEngine
  | .setParam v x => (set_parameter e v x).toOption
  | .setCoef t s c => (set_influence_coef e t s c).toOption
  | .toggle t s b => (toggle_influence e t s b).toOption
  | .doStep dtOpt => step exp e dtOpt

/-- Apply a sequence of operations, stopping at the first exception. -/
def applyOps : SimulationEngine → List EngineOp → Option SimulationEngine
  | e, [] => some e
  | e, op :: rest =>
    match applyOp exp e op with
    | none => none
    | some e1 => applyOps e1 rest

end Runner


/-! Association-list lemmas used throughout: the dictionaries are
modelled as ordered key-value lists with first-match lookup. -/

theorem lookup_cons_ne {α : Type} {k k1 : String} (v1 : α) (rest : List (String × α))
    (h : k ≠ k1) : List.lookup k ((k1, v1) :: rest) = List.lookup k rest := by
  have hb : (k == k1) = false := beq_eq_false_iff_ne.mpr h
  simp [List.lookup_cons, hb]

theorem lookup_map_snd {α β : Type} (f : α → β) (l : List (String × α)) (k : String) :
    List.lookup k (l.map (fun p => (p.1, f p.2))) = (List.lookup k l).map f := by
  induction l with
  | nil => rfl
  | cons p rest ih =>
    obtain ⟨k1, v1⟩ := p
    by_cases h : k = k1
    · subst h
      simp
    · simp only [List.map_cons]
      rw [lookup_cons_ne _ _ h, lookup_cons_ne _ _ h, ih]

theorem mem_of_lookup_eq_some {α : Type} {l : List (String × α)} {k : String} {v : α}
    (h : List.lookup k l = some v) : (k, v) ∈ l := by
  induction l with
  | nil => simp [List.lookup] at h
  | cons p rest ih =>
    obtain ⟨k1, v1⟩ := p
    by_cases hk : k = k1
    · subst hk
      simp at h
      simp [h]
    · rw [lookup_cons_ne _ _ hk] at h
      exact List.mem_cons_of_mem _ (ih h)

theorem lookup_of_mem_nodup {α : Type} {l : List (String × α)} {p : String × α}
    (hn : (l.map Prod.fst).Nodup) (hm : p ∈ l) : List.lookup p.1 l = some p.2 := by
  induction l with
  | nil => simp at hm
  | cons q rest ih =>
    obtain ⟨k1, v1⟩ := q
    simp only [List.map_cons, List.nodup_cons] at hn
    rcases List.mem_cons.mp hm with h | h
    · subst h
      simp
    · have hk : p.1 ≠ k1 := by
        intro he
        exact hn.1 (he ▸ List.mem_map_of_mem Prod.fst h)
      rw [lookup_cons_ne _ _ hk]
      exact ih hn.2 h

theorem lookup_eq_none_of_not_mem_keys {α : Type} {l : List (String × α)} {k : String}
    (h : k ∉ l.map Prod.fst) : List.lookup k l = none := by
  induction l with
  | nil => rfl
  | cons p rest ih =>
    obtain ⟨k1, v1⟩ := p
    simp only [List.map_cons, List.mem_cons] at h
    push_neg at h
    rw [lookup_cons_ne _ _ h.1]
    exact ih h.2

theorem stateSet_cons_self (k : String) (v0 v : ℚ) (rest : SimState) :
    stateSet ((k, v0) :: rest) k v = (k, v) :: stateSet rest k v := by
  simp [stateSet]

theorem stateSet_cons_ne {k1 k : String} (v0 v : ℚ) (rest : SimState) (h : k1 ≠ k) :
    stateSet ((k1, v0) :: rest) k v = (k1, v0) :: stateSet rest k v := by
  simp [stateSet, h]

theorem lookup_stateSet (s : SimState) (k k1 : String) (v : ℚ) :
    List.lookup k (stateSet s k1 v) =
      if k = k1 then (List.lookup k s).map (fun _ => v) else List.lookup k s := by
  induction s with
  | nil => by_cases h : k = k1 <;> simp [stateSet, h]
  | cons p rest ih =>
    obtain ⟨k2, v2⟩ := p
    by_cases h2 : k2 = k1
    · subst h2
      rw [stateSet_cons_self]
      by_cases h : k = k2
      · subst h
        simp
      · rw [lookup_cons_ne _ _ h, lookup_cons_ne _ _ h, ih, if_neg h]
    · rw [stateSet_cons_ne _ _ _ h2]
      by_cases h : k = k2
      · subst h
        have hne : k ≠ k1 := fun he => h2 he
        simp [if_neg hne]
      · rw [lookup_cons_ne _ _ h, lookup_cons_ne _ _ h, ih]

theorem keys_stateSet (s : SimState) (k : String) (v : ℚ) :
    (stateSet s k v).map Prod.fst = s.map Prod.fst := by
  induction s with
  | nil => rfl
  | cons p rest ih =>
    simp only [stateSet, List.map_cons] at ih ⊢
    by_cases h : p.1 = k
    · simp [h, ih]
    · simp [h, ih]

theorem keys_commitValues (s : SimState) (nv : List (String × ℚ)) :
    (commitValues s nv).map Prod.fst = s.map Prod.fst := by
  induction nv generalizing s with
  | nil => rfl
  | cons p rest ih =>
    simp only [commitValues, List.foldl_cons] at ih ⊢
    rw [ih, keys_stateSet]

theorem lookup_commitValues (s : SimState) (nv : List (String × ℚ)) (k : String)
    (hn : (nv.map Prod.fst).Nodup) :
    List.lookup k (commitValues s nv) =
      match List.lookup k nv with
      | some v => (List.lookup k s).map (fun _ => v)
      | none => List.lookup k s := by
  induction nv generalizing s with
  | nil => rfl
  | cons p rest ih =>
    obtain ⟨k1, v1⟩ := p
    simp only [List.map_cons, List.nodup_cons] at hn
    simp only [commitValues, List.foldl_cons] at ih ⊢
    rw [ih _ hn.2]
    by_cases h : k = k1
    · subst h
      have hrest : List.lookup k rest = none :=
        lookup_eq_none_of_not_mem_keys hn.1
      simp [hrest, lookup_stateSet]
    · rw [lookup_cons_ne _ _ h]
      rcases hrest : List.lookup k rest with _ | v
      · simp [lookup_stateSet, h]
      · simp [lookup_stateSet, h]

theorem keys_phase2_sublist (s : SimState) (dt : ℚ) (d : List (String × ℚ))
    (metas : List (String × VarMeta)) :
    ((phase2Values s dt d metas).map Prod.fst).Sublist (metas.map Prod.fst) := by
  induction metas with
  | nil => simp [phase2Values]
  | cons p rest ih =>
    rcases ht : p.2.type with _ | _ | _ <;>
      simp only [phase2Values, ht, List.map_cons]
    · exact ih.cons₂ p.1
    · exact ih.cons₂ p.1
    · exact ih.cons p.1

theorem lookup_phase2 (s : SimState) (dt : ℚ) (d : List (String × ℚ))
    (metas : List (String × VarMeta)) (k : String)
    (hn : (metas.map Prod.fst).Nodup) :
    List.lookup k (phase2Values s dt d metas) =
      match List.lookup k metas with
      | some meta =>
        match meta.type with
        | .state => some (applyBounds meta (stateGetD s k + dt * stateGetD d k))
        | .computed => some (applyBounds meta (stateGetD s k + stateGetD d k))
        | .constant => none
      | none => none := by
  induction metas with
  | nil => rfl
  | cons p rest ih =>
    obtain ⟨k1, meta1⟩ := p
    simp only [List.map_cons, List.nodup_cons] at hn
    by_cases h : k = k1
    · subst h
      have hrest : List.lookup k (phase2Values s dt d rest) = none := by
        refine lookup_eq_none_of_not_mem_keys (fun hmem => hn.1 ?_)
        exact (keys_phase2_sublist s dt d rest).mem hmem
      rcases ht : meta1.type with _ | _ | _ <;>
        simp [phase2Values, ht, hrest]
    · rcases ht : meta1.type with _ | _ | _ <;>
        simp only [phase2Values, ht] <;>
        rw [lookup_cons_ne _ _ h, ih hn.2] <;>
        rw [lookup_cons_ne _ _ h]

theorem derivPhase_cons_constant (exp : ℚ → ℚ) (s : SimState) (k1 : String)
    (meta1 : VarMeta) (rest : List (String × VarMeta))
    (ht : meta1.type = CompType.constant) :
    derivPhase exp s ((k1, meta1) :: rest) = derivPhase exp s rest := by
  simp [derivPhase, ht]

theorem derivPhase_cons_active_some (exp : ℚ → ℚ) (s : SimState) (k1 : String)
    (meta1 : VarMeta) (rest : List (String × VarMeta)) (d : List (String × ℚ))
    (ht : meta1.type = CompType.state ∨ meta1.type = CompType.computed)
    (h : derivPhase exp s ((k1, meta1) :: rest) = some d) :
    ∃ dv d1, computeDerivAux exp s k1 meta1 = some dv ∧
      derivPhase exp s rest = some d1 ∧ d = (k1, dv) :: d1 := by
  have hform :
      derivPhase exp s ((k1, meta1) :: rest) =
        match computeDerivAux exp s k1 meta1 with
        | none => none
        | some dv => (derivPhase exp s rest).map (fun l => (k1, dv) :: l) := by
    rcases ht with ht | ht <;> simp [derivPhase, ht]
  rw [hform] at h
  rcases hc : computeDerivAux exp s k1 meta1 with _ | dv <;> rw [hc] at h
  · simp at h
  · rcases hr : derivPhase exp s rest with _ | d1 <;> rw [hr] at h
    · simp at h
    · refine ⟨dv, d1, rfl, rfl, ?_⟩
      simpa using h.symm

theorem derivPhase_keys_sublist (exp : ℚ → ℚ) (s : SimState)
    (metas : List (String × VarMeta)) (d : List (String × ℚ))
    (h : derivPhase exp s metas = some d) :
    (d.map Prod.fst).Sublist (metas.map Prod.fst) := by
  induction metas generalizing d with
  | nil =>
    simp only [derivPhase, Option.some.injEq] at h
    simp [← h]
  | cons p rest ih =>
    obtain ⟨k1, meta1⟩ := p
    rcases ht : meta1.type with _ | _ | _
    · obtain ⟨dv, d1, _, hr, rfl⟩ :=
        derivPhase_cons_active_some exp s k1 meta1 rest d (Or.inl ht) h
      exact (ih d1 hr).cons₂ k1
    · obtain ⟨dv, d1, _, hr, rfl⟩ :=
        derivPhase_cons_active_some exp s k1 meta1 rest d (Or.inr ht) h
      exact (ih d1 hr).cons₂ k1
    · rw [derivPhase_cons_constant exp s k1 meta1 rest ht] at h
      exact (ih d h).cons k1

theorem derivPhase_lookup (exp : ℚ → ℚ) (s : SimState)
    (metas : List (String × VarMeta)) (d : List (String × ℚ)) (k : String)
    (meta : VarMeta) (hn : (metas.map Prod.fst).Nodup)
    (h : derivPhase exp s metas = some d)
    (hm : List.lookup k metas = some meta) :
    match meta.type with
    | .state => ∃ dv, computeDerivAux exp s k meta = some dv ∧ List.lookup k d = some dv
    | .computed => ∃ dv, computeDerivAux exp s k meta = some dv ∧ List.lookup k d = some dv
    | .constant => List.lookup k d = none := by
  induction metas generalizing d with
  | nil => simp [List.lookup] at hm
  | cons p rest ih =>
    obtain ⟨k1, meta1⟩ := p
    simp only [List.map_cons, List.nodup_cons] at hn
    by_cases hk : k = k1
    · subst hk
      rw [List.lookup_cons_self] at hm
      injection hm with hmeta
      rw [← hmeta]
      rcases ht : meta1.type with _ | _ | _ <;> simp only [ht]
      · obtain ⟨dv, d1, hc, hr, rfl⟩ :=
          derivPhase_cons_active_some exp s k meta1 rest d (Or.inl ht) h
        exact ⟨dv, hc, by simp⟩
      · obtain ⟨dv, d1, hc, hr, rfl⟩ :=
          derivPhase_cons_active_some exp s k meta1 rest d (Or.inr ht) h
        exact ⟨dv, hc, by simp⟩
      · rw [derivPhase_cons_constant exp s k meta1 rest ht] at h
        refine lookup_eq_none_of_not_mem_keys (fun hmem => hn.1 ?_)
        exact (derivPhase_keys_sublist exp s rest d h).mem hmem
    · rw [lookup_cons_ne _ _ hk] at hm
      rcases ht : meta1.type with _ | _ | _
      · obtain ⟨dv, d1, hc, hr, rfl⟩ :=
          derivPhase_cons_active_some exp s k1 meta1 rest d (Or.inl ht) h
        have hres := ih d1 hn.2 hr hm
        rcases ht2 : meta.type with _ | _ | _ <;> rw [ht2] at hres <;> simp only
        · obtain ⟨dv2, hdv2, hl⟩ := hres
          exact ⟨dv2, hdv2, by rw [lookup_cons_ne _ _ hk]; exact hl⟩
        · obtain ⟨dv2, hdv2, hl⟩ := hres
          exact ⟨dv2, hdv2, by rw [lookup_cons_ne _ _ hk]; exact hl⟩
        · rw [lookup_cons_ne _ _ hk]
          exact hres
      · obtain ⟨dv, d1, hc, hr, rfl⟩ :=
          derivPhase_cons_active_some exp s k1 meta1 rest d (Or.inr ht) h
        have hres := ih d1 hn.2 hr hm
        rcases ht2 : meta.type with _ | _ | _ <;> rw [ht2] at hres <;> simp only
        · obtain ⟨dv2, hdv2, hl⟩ := hres
          exact ⟨dv2, hdv2, by rw [lookup_cons_ne _ _ hk]; exact hl⟩
        · obtain ⟨dv2, hdv2, hl⟩ := hres
          exact ⟨dv2, hdv2, by rw [lookup_cons_ne _ _ hk]; exact hl⟩
        · rw [lookup_cons_ne _ _ hk]
          exact hres
      · rw [derivPhase_cons_constant exp s k1 meta1 rest ht] at h
        exact ih d hn.2 h hm

theorem stepE_some_inv (exp : ℚ → ℚ) (e : SimulationEngine) (dt : ℚ)
    (e1 : SimulationEngine) (h : stepE exp e dt = some e1) :
    ∃ d, derivPhase exp e.state (metaEntries e.model) = some d ∧
      e1 = { e with
        state := commitValues e.state
          (phase2Values e.state dt d (metaEntries e.model)) } := by
  rcases hd : derivPhase exp e.state (metaEntries e.model) with _ | d <;>
    simp only [stepE, hd, Option.some.injEq] at h
  · exact absurd h (by simp)
  · exact ⟨d, rfl, h.symm⟩

theorem keys_stepE (exp : ℚ → ℚ) (e : SimulationEngine) (dt : ℚ)
    (e1 : SimulationEngine) (h : stepE exp e dt = some e1) :
    e1.model = e.model ∧ e1.state.map Prod.fst = e.state.map Prod.fst := by
  obtain ⟨d, _, rfl⟩ := stepE_some_inv exp e dt e1 h
  exact ⟨rfl, keys_commitValues _ _⟩

/-- Pointwise characterisation of one step: each variable's post-step
value is determined by the pre-step state alone (derivatives evaluated
on the unchanged snapshot, `state` integrated with `dt`, `computed`
without, constants untouched). -/
theorem stepE_char (exp : ℚ → ℚ) (e : SimulationEngine) (dt : ℚ)
    (e1 : SimulationEngine)
    (hwf : ((metaEntries e.model).map Prod.fst).Nodup)
    (h : stepE exp e dt = some e1) :
    e1.model = e.model ∧
    ∀ k meta, varMetadata e.model k = some meta →
      match meta.type with
      | .state => ∃ dv, computeDerivAux exp e.state k meta = some dv ∧
          List.lookup k e1.state =
            (List.lookup k e.state).map
              (fun _ => applyBounds meta (stateGetD e.state k + dt * dv))
      | .computed => ∃ dv, computeDerivAux exp e.state k meta = some dv ∧
          List.lookup k e1.state =
            (List.lookup k e.state).map
              (fun _ => applyBounds meta (stateGetD e.state k + dv))
      | .constant => List.lookup k e1.state = List.lookup k e.state := by
  obtain ⟨d, hd, rfl⟩ := stepE_some_inv exp e dt e1 h
  refine ⟨rfl, fun k meta hm => ?_⟩
  have hnv : ((phase2Values e.state dt d (metaEntries e.model)).map Prod.fst).Nodup :=
    (keys_phase2_sublist e.state dt d (metaEntries e.model)).nodup hwf
  have hcommit := lookup_commitValues e.state
    (phase2Values e.state dt d (metaEntries e.model)) k hnv
  have hderiv := derivPhase_lookup exp e.state (metaEntries e.model) d k meta hwf hd hm
  have hm2 : List.lookup k (metaEntries e.model) = some meta := hm
  rcases ht : meta.type with _ | _ | _ <;> rw [ht] at hderiv <;>
    dsimp only at hderiv ⊢
  · obtain ⟨dv, hdv, hl⟩ := hderiv
    have hgd : stateGetD d k = dv := by simp [stateGetD, hl]
    refine ⟨dv, hdv, ?_⟩
    have hph3 : List.lookup k (phase2Values e.state dt d (metaEntries e.model)) =
        some (applyBounds meta (stateGetD e.state k + dt * stateGetD d k)) := by
      simp only [lookup_phase2 e.state dt d (metaEntries e.model) k hwf, hm2, ht]
    simp only [hcommit, hph3, hgd]
  · obtain ⟨dv, hdv, hl⟩ := hderiv
    have hgd : stateGetD d k = dv := by simp [stateGetD, hl]
    refine ⟨dv, hdv, ?_⟩
    have hph3 : List.lookup k (phase2Values e.state dt d (metaEntries e.model)) =
        some (applyBounds meta (stateGetD e.state k + stateGetD d k)) := by
      simp only [lookup_phase2 e.state dt d (metaEntries e.model) k hwf, hm2, ht]
    simp only [hcommit, hph3, hgd]
  · have hph3 : List.lookup k (phase2Values e.state dt d (metaEntries e.model)) =
        none := by
      simp only [lookup_phase2 e.state dt d (metaEntries e.model) k hwf, hm2, ht]
    simp only [hcommit, hph3]

theorem set_parameter_ok_char (e : SimulationEngine) (v : String) (x : ℚ)
    (e1 : SimulationEngine) (h : set_parameter e v x = .ok e1) :
    e1.model = e.model ∧ (List.lookup v e.state).isSome ∧
    ∃ meta, varMetadata e.model v = some meta ∧
      e1.state = stateSet e.state v (applyBounds meta x) := by
  rcases hl : List.lookup v e.state with _ | w <;>
    simp only [set_parameter, hl] at h
  · exact absurd h (by simp)
  · rcases hm : varMetadata e.model v with _ | meta <;> rw [hm] at h
    · exact absurd h (by simp)
    · simp only [Except.ok.injEq] at h
      refine ⟨by rw [← h], by simp, meta, rfl, ?_⟩
      rw [← h]
      rfl

theorem keys_updateFirst {α : Type} (k : String) (f : α → α) (l : List (String × α)) :
    (updateFirst k f l).map Prod.fst = l.map Prod.fst := by
  induction l with
  | nil => rfl
  | cons p rest ih =>
    by_cases h : p.1 = k <;> simp [updateFirst, h, ih]

theorem updateFirst_cons_self {α : Type} (k : String) (v : α) (f : α → α)
    (rest : List (String × α)) :
    updateFirst k f ((k, v) :: rest) = (k, f v) :: rest := by
  simp [updateFirst]

theorem updateFirst_cons_ne {α : Type} {k1 k : String} (v : α) (f : α → α)
    (rest : List (String × α)) (h : k1 ≠ k) :
    updateFirst k f ((k1, v) :: rest) = (k1, v) :: updateFirst k f rest := by
  simp [updateFirst, h]

theorem lookup_updateFirst {α : Type} (k k1 : String) (f : α → α) (l : List (String × α)) :
    List.lookup k (updateFirst k1 f l) =
      if k = k1 then (List.lookup k l).map f else List.lookup k l := by
  induction l with
  | nil => by_cases h : k = k1 <;> simp [updateFirst, h]
  | cons p rest ih =>
    obtain ⟨k2, v2⟩ := p
    by_cases h2 : k2 = k1
    · subst h2
      rw [updateFirst_cons_self]
      by_cases h : k = k2
      · subst h
        simp
      · rw [lookup_cons_ne _ _ h, lookup_cons_ne _ _ h, if_neg h]
    · rw [updateFirst_cons_ne _ _ _ h2]
      by_cases h : k = k2
      · subst h
        have hne : k ≠ k1 := fun he => h2 he
        simp [if_neg hne]
      · rw [lookup_cons_ne _ _ h, lookup_cons_ne _ _ h, ih]

theorem mem_updateFirst_of_lookup {α : Type} {l : List (String × α)} {k : String}
    {v : α} (f : α → α) (h : List.lookup k l = some v) :
    (k, f v) ∈ updateFirst k f l := by
  induction l with
  | nil => simp [List.lookup] at h
  | cons p rest ih =>
    obtain ⟨k1, v1⟩ := p
    by_cases hk : k = k1
    · subst hk
      simp only [List.lookup_cons_self, Option.some.injEq] at h
      subst h
      rw [updateFirst_cons_self]
      exact List.mem_cons_self _ _
    · rw [lookup_cons_ne _ _ hk] at h
      have hne : k1 ≠ k := fun he => hk he.symm
      rw [updateFirst_cons_ne _ _ _ hne]
      exact List.mem_cons_of_mem _ (ih h)

theorem mem_metaEntries_of_mem {m : SystemModel} {en cn : String}
    {ent : EntityModel} {c : ComponentModel}
    (he : (en, ent) ∈ m.entities) (hc : (cn, c) ∈ ent.components) :
    (en ++ "." ++ cn, (⟨c.type, c.min, c.max, c.influences, en, cn⟩ : VarMeta)) ∈
      metaEntries m := by
  simp only [metaEntries, initPairs, List.mem_map, List.mem_flatMap]
  refine ⟨(en ++ "." ++ cn, (c.initial, ⟨c.type, c.min, c.max, c.influences, en, cn⟩)),
    ⟨(en, ent), he, ?_⟩, rfl⟩
  simp only [List.mem_map]
  exact ⟨(cn, c), hc, rfl⟩

theorem mem_metaEntries_inv {m : SystemModel} {k : String} {meta : VarMeta}
    (h : (k, meta) ∈ metaEntries m) :
    ∃ en ent cn c, (en, ent) ∈ m.entities ∧ (cn, c) ∈ ent.components ∧
      k = en ++ "." ++ cn ∧
      meta = ⟨c.type, c.min, c.max, c.influences, en, cn⟩ := by
  simp only [metaEntries, initPairs, List.mem_map, List.mem_flatMap] at h
  obtain ⟨p, ⟨q, hq, r, hr, rfl⟩, hpk⟩ := h
  rw [Prod.ext_iff] at hpk
  exact ⟨q.1, q.2, r.1, r.2, by simpa using hq, by simpa using hr,
    hpk.1.symm, hpk.2.symm⟩

theorem initState_flat (ents : List (String × EntityModel)) (sim : SimulationModel) :
    initState ⟨ents, sim⟩ =
      ents.flatMap (fun p =>
        p.2.components.map (fun q => (p.1 ++ "." ++ q.1, q.2.initial))) := by
  simp [initState, initPairs, List.map_flatMap, List.map_map]
  rfl

theorem metaKeys_flat (ents : List (String × EntityModel)) (sim : SimulationModel) :
    (metaEntries ⟨ents, sim⟩).map Prod.fst =
      ents.flatMap (fun p => p.2.components.map (fun q => p.1 ++ "." ++ q.1)) := by
  simp [metaEntries, initPairs, List.map_flatMap, List.map_map]
  rfl

theorem comps_initflat_updateFirst (cn : String) (infs : List InfluenceModel)
    (en : String) (comps : List (String × ComponentModel)) :
    (updateFirst cn (fun c => { c with influences := infs }) comps).map
        (fun q => (en ++ "." ++ q.1, q.2.initial)) =
      comps.map (fun q => (en ++ "." ++ q.1, q.2.initial)) := by
  induction comps with
  | nil => rfl
  | cons p rest ih =>
    obtain ⟨k1, c1⟩ := p
    by_cases h : k1 = cn
    · subst h
      rw [updateFirst_cons_self]
      simp
    · rw [updateFirst_cons_ne _ _ _ h]
      simp only [List.map_cons, ih]

theorem comps_keys_updateFirst (cn : String) (infs : List InfluenceModel)
    (en : String) (comps : List (String × ComponentModel)) :
    (updateFirst cn (fun c => { c with influences := infs }) comps).map
        (fun q => en ++ "." ++ q.1) =
      comps.map (fun q => en ++ "." ++ q.1) := by
  induction comps with
  | nil => rfl
  | cons p rest ih =>
    obtain ⟨k1, c1⟩ := p
    by_cases h : k1 = cn
    · subst h
      rw [updateFirst_cons_self]
      simp
    · rw [updateFirst_cons_ne _ _ _ h]
      simp only [List.map_cons, ih]

theorem initState_updateInfluences (m : SystemModel) (en cn : String)
    (infs : List InfluenceModel) :
    initState (updateInfluences m en cn infs) = initState m := by
  obtain ⟨ents, sim⟩ := m
  simp only [updateInfluences]
  rw [initState_flat, initState_flat]
  induction ents with
  | nil => rfl
  | cons p rest ih =>
    obtain ⟨k1, ent1⟩ := p
    by_cases h : k1 = en
    · subst h
      rw [updateFirst_cons_self]
      simp only [List.flatMap_cons]
      rw [comps_initflat_updateFirst]
    · rw [updateFirst_cons_ne _ _ _ h]
      simp only [List.flatMap_cons, ih]

theorem metaKeys_updateInfluences (m : SystemModel) (en cn : String)
    (infs : List InfluenceModel) :
    (metaEntries (updateInfluences m en cn infs)).map Prod.fst =
      (metaEntries m).map Prod.fst := by
  obtain ⟨ents, sim⟩ := m
  simp only [updateInfluences]
  rw [metaKeys_flat, metaKeys_flat]
  induction ents with
  | nil => rfl
  | cons p rest ih =>
    obtain ⟨k1, ent1⟩ := p
    by_cases h : k1 = en
    · subst h
      rw [updateFirst_cons_self]
      simp only [List.flatMap_cons]
      rw [comps_keys_updateFirst]
    · rw [updateFirst_cons_ne _ _ _ h]
      simp only [List.flatMap_cons, ih]

theorem replaceFirstInfluence_isSome (source : String)
    (f : InfluenceModel → InfluenceModel) (infs : List InfluenceModel) :
    (replaceFirstInfluence source f infs).isSome =
      infs.any (fun inf => inf.from_ = source) := by
  induction infs with
  | nil => rfl
  | cons inf rest ih =>
    by_cases h : inf.from_ = source <;>
      simp [replaceFirstInfluence, h, ih]

theorem replaceFirstInfluence_split (source : String)
    (f : InfluenceModel → InfluenceModel) (pre : List InfluenceModel)
    (inf : InfluenceModel) (post : List InfluenceModel)
    (hpre : ∀ i ∈ pre, i.from_ ≠ source) (hinf : inf.from_ = source) :
    replaceFirstInfluence source f (pre ++ inf :: post) =
      some (pre ++ f inf :: post) := by
  induction pre with
  | nil => simp [replaceFirstInfluence, hinf]
  | cons i rest ih =>
    have hi : i.from_ ≠ source := hpre i (List.mem_cons_self i rest)
    have hrest : ∀ j ∈ rest, j.from_ ≠ source :=
      fun j hj => hpre j (List.mem_cons_of_mem i hj)
    simp [replaceFirstInfluence, hi, ih hrest]

theorem varMetadata_coherent (m : SystemModel) (k : String) (meta : VarMeta)
    (hent : (m.entities.map Prod.fst).Nodup)
    (hcomp : ∀ p ∈ m.entities, (p.2.components.map Prod.fst).Nodup)
    (h : varMetadata m k = some meta) :
    ∃ ent c, List.lookup meta.entity m.entities = some ent ∧
      List.lookup meta.component ent.components = some c ∧
      c.type = meta.type ∧ c.min = meta.min ∧ c.max = meta.max ∧
      c.influences = meta.influences ∧
      k = meta.entity ++ "." ++ meta.component := by
  have hmem : (k, meta) ∈ metaEntries m := mem_of_lookup_eq_some h
  obtain ⟨en, ent, cn, c, he, hc, hk, hmeta⟩ := mem_metaEntries_inv hmem
  subst hmeta
  refine ⟨ent, c, ?_, ?_, rfl, rfl, rfl, rfl, hk⟩
  · exact lookup_of_mem_nodup hent he
  · exact lookup_of_mem_nodup (hcomp (en, ent) he) hc

theorem varMetadata_after_update (m : SystemModel) (en cn : String)
    (ent : EntityModel) (c : ComponentModel) (infs : List InfluenceModel)
    (hfull : ((metaEntries m).map Prod.fst).Nodup)
    (hle : List.lookup en m.entities = some ent)
    (hlc : List.lookup cn ent.components = some c) :
    varMetadata (updateInfluences m en cn infs) (en ++ "." ++ cn) =
      some ⟨c.type, c.min, c.max, infs, en, cn⟩ := by
  have hfull2 : ((metaEntries (updateInfluences m en cn infs)).map Prod.fst).Nodup := by
    rw [metaKeys_updateInfluences]
    exact hfull
  have hme : (en, { ent with
      components := updateFirst cn (fun c0 => { c0 with influences := infs })
        ent.components }) ∈ (updateInfluences m en cn infs).entities :=
    mem_updateFirst_of_lookup _ hle
  have hmc : (cn, { c with influences := infs }) ∈
      (updateFirst cn (fun c0 => { c0 with influences := infs }) ent.components) :=
    mem_updateFirst_of_lookup _ hlc
  have hmm := mem_metaEntries_of_mem hme hmc
  exact lookup_of_mem_nodup hfull2 hmm

theorem set_influence_coef_ok_inv (e : SimulationEngine) (t s : String) (c : ℚ)
    (e1 : SimulationEngine) (h : set_influence_coef e t s c = .ok e1) :
    e1.state = e.state ∧ ∃ en cn infs, e1.model = updateInfluences e.model en cn infs := by
  unfold set_influence_coef at h
  split at h
  · exact absurd h (by simp)
  · split at h
    · split at h
      · exact absurd h (by simp)
      · split at h
        · exact absurd h (by simp)
        · split at h
          · exact absurd h (by simp)
          · simp only [Except.ok.injEq] at h
            subst h
            exact ⟨rfl, _, _, _, rfl⟩
    · exact absurd h (by simp)

theorem toggle_influence_ok_inv (e : SimulationEngine) (t s : String) (b : Bool)
    (e1 : SimulationEngine) (h : toggle_influence e t s b = .ok e1) :
    e1.state = e.state ∧ ∃ en cn infs, e1.model = updateInfluences e.model en cn infs := by
  unfold toggle_influence at h
  split at h
  · exact absurd h (by simp)
  · split at h
    · exact absurd h (by simp)
    · split at h
      · exact absurd h (by simp)
      · split at h
        · exact absurd h (by simp)
        · simp only [Except.ok.injEq] at h
          subst h
          exact ⟨rfl, _, _, _, rfl⟩

theorem except_toOption_some {ε α : Type} {x : Except ε α} {a : α}
    (h : x.toOption = some a) : x = .ok a := by
  cases x with
  | error e => simp [Except.toOption] at h
  | ok b =>
    simp [Except.toOption] at h
    rw [h]

theorem applyOp_initState (exp : ℚ → ℚ) (e : SimulationEngine) (op : EngineOp)
    (e1 : SimulationEngine) (h : applyOp exp e op = some e1) :
    initState e1.model = initState e.model := by
  cases op with
  | setParam v x =>
    have hok := except_toOption_some h
    rw [(set_parameter_ok_char e v x e1 hok).1]
  | setCoef t s c =>
    have hok := except_toOption_some h
    obtain ⟨-, en, cn, infs, hm⟩ := set_influence_coef_ok_inv e t s c e1 hok
    rw [hm, initState_updateInfluences]
  | toggle t s b =>
    have hok := except_toOption_some h
    obtain ⟨-, en, cn, infs, hm⟩ := toggle_influence_ok_inv e t s b e1 hok
    rw [hm, initState_updateInfluences]
  | doStep dtOpt =>
    obtain ⟨d, hd, rfl⟩ := stepE_some_inv exp e _ e1 h
    rfl

theorem applyOps_initState (exp : ℚ → ℚ) (l : List EngineOp) (e e1 : SimulationEngine)
    (h : applyOps exp e l = some e1) :
    initState e1.model = initState e.model := by
  induction l generalizing e with
  | nil =>
    simp only [applyOps, Option.some.injEq] at h
    rw [← h]
  | cons op rest ih =>
    rcases hop : applyOp exp e op with _ | e2 <;>
      simp only [applyOps, hop] at h
    · exact absurd h (by simp)
    · rw [ih e2 h, applyOp_initState exp e op e2 hop]

/-- The concrete scenario model of the spec (§8): one entity `E`, one
state component `x` with initial `0.5`, bounds `[0, 1]` and a single
enabled decay influence from `"x"` with coefficient `-0.2` and linear
transfer function; `dt = 0.1`, `steps = 1`. -/
def Mex : SystemModel :=
  ⟨[("E", ⟨[("x", ⟨.state, 1/2, some 0, some 1,
    [⟨"x", -1/5, .decay, .linear, true⟩]⟩)]⟩)], ⟨1/10, 1⟩⟩

/-- C1 (amended): after any sequence of `set_parameter`,
`set_influence_coef`, `toggle_influence` and `step` calls, `reset()`
leaves the mutated model untouched (so influence mutations persist) and
re-seeds the state from the model's original initial values — which
discards stepping drift AND every value written by `set_parameter`,
because `set_parameter` writes to the state, not to the model. -/
theorem claim_C1_reset_reseeds_model_mutations_persist (exp : ℚ → ℚ)
    (m : SystemModel) (l : List EngineOp) (e1 : SimulationEngine)
    (h : applyOps exp (mkEngine m) l = some e1) :
    (reset e1).model = e1.model ∧ (reset e1).state = initState m := by
  refine ⟨rfl, ?_⟩
  show initState e1.model = initState m
  exact applyOps_initState exp l (mkEngine m) e1 h

/-- C1 witness: a concrete model and operation sequence for which the
amended claim's hypothesis is discharged by evaluation. -/
theorem claim_C1_witness :
    applyOps (fun _ => 0) (mkEngine Mex) [EngineOp.setParam "E.x" 1] =
      some ⟨Mex, [("E.x", 1)]⟩ ∧
    ((reset (⟨Mex, [("E.x", 1)]⟩ : SimulationEngine)).model = Mex ∧
      (reset (⟨Mex, [("E.x", 1)]⟩ : SimulationEngine)).state = initState Mex) := by
  have h : applyOps (fun _ => 0) (mkEngine Mex) [EngineOp.setParam "E.x" 1] =
      some ⟨Mex, [("E.x", 1)]⟩ := by
    simp [applyOps, applyOp, set_parameter, mkEngine, initState, initPairs, Mex,
      varMetadata, metaEntries, List.lookup, Except.toOption, stateSet]
  exact ⟨h, claim_C1_reset_reseeds_model_mutations_persist (fun _ => 0) Mex _ _ h⟩

/-- C1 counterexample to the claim as stated: the claim says values
written by `set_parameter` remain in effect across `reset()`.  On the
concrete model, `set_parameter("E.x", 1.0)` stores `1.0`, but after
`reset()` the value is the original initial `0.5` again. -/
theorem claim_C1_counterexample :
    (set_parameter (mkEngine Mex) "E.x" 1).toOption.map
        (fun e1 => stateGetD e1.state "E.x") = some 1 ∧
    (set_parameter (mkEngine Mex) "E.x" 1).toOption.map
        (fun e1 => stateGetD (reset e1).state "E.x") = some (1/2) ∧
    (1 : ℚ)/2 ≠ 1 := by
  refine ⟨?_, ?_, by norm_num⟩ <;>
    simp [set_parameter, mkEngine, initState, initPairs, Mex, varMetadata,
      metaEntries, List.lookup, Except.toOption, stateSet, reset, stateGetD]

/-- C2: on the concrete scenario model, the derivative of `E.x` is
`-0.2 * 0.5 = -0.1` (the decay kind multiplies the coefficient by the
target's own current value, discarding the transfer-function output —
stated in full generality as the second conjunct), one step with
`dt = 0.1` yields `0.5 + 0.1 * (-0.1) = 0.49`, and `run()` returns
`final_state = {"E.x": 0.49}`. -/
theorem claim_C2_concrete_scenario (exp : ℚ → ℚ) :
    compute_derivative exp (mkEngine Mex) "E.x" = some (-(1/10)) ∧
    (∀ s v inf source_value contribution, inf.kind = Kind.decay →
      kindModifier s v inf source_value contribution = inf.coef * stateGetD s v) ∧
    (stepE exp (mkEngine Mex) (1/10)).map (fun e1 => stateGetD e1.state "E.x") =
      some (49/100) ∧
    (run exp (mkEngine Mex) none none).map (fun p => p.2.final_state) =
      some [("E.x", 49/100)] := by
  refine ⟨?_, ?_, ?_, ?_⟩
  · simp [compute_derivative, varMetadata, metaEntries, initPairs, Mex, mkEngine,
      computeDerivAux, influencesSum, influenceTerm, resolveSource, kindModifier,
      applyInfluenceFunction, linear, stateGetD, initState, lastComponent, splitDots,
      containsDot, List.lookup]
    norm_num
  · intro s v inf source_value contribution hk
    simp [kindModifier, hk]
  · simp [stepE, derivPhase, Mex, mkEngine, computeDerivAux, influencesSum,
      influenceTerm, resolveSource, kindModifier, applyInfluenceFunction, linear,
      stateGetD, initState, initPairs, metaEntries, lastComponent, splitDots,
      containsDot, List.lookup, phase2Values, commitValues, stateSet, applyBounds]
    norm_num
  · simp [run, runFrom, stepE, derivPhase, Mex, mkEngine, computeDerivAux,
      influencesSum, influenceTerm, resolveSource, kindModifier,
      applyInfluenceFunction, linear, stateGetD, initState, initPairs, metaEntries,
      lastComponent, splitDots, containsDot, List.lookup, phase2Values, commitValues,
      stateSet, applyBounds]
    norm_num

/-- C2 witness: the general decay conjunct evaluated at a concrete
influence, together with the concrete `run` result. -/
theorem claim_C2_witness :
    kindModifier [] "v" ⟨"s", 3, Kind.decay, TransferFunction.linear, true⟩ 7 99 =
      3 * stateGetD [] "v" ∧
    (run (fun _ => 0) (mkEngine Mex) none none).map (fun p => p.2.final_state) =
      some [("E.x", 49/100)] :=
  ⟨(claim_C2_concrete_scenario (fun _ => 0)).2.1 [] "v"
      ⟨"s", 3, Kind.decay, TransferFunction.linear, true⟩ 7 99 rfl,
   (claim_C2_concrete_scenario (fun _ => 0)).2.2.2⟩

/-- C5: determinism — two engines freshly constructed from the same
model are equal values in the embedding (construction deep-copies the
model, so no mutable state is shared), and `run` is a pure function, so
both runs return the same history, time points and final state. -/
theorem claim_C5_determinism (exp : ℚ → ℚ) (m : SystemModel)
    (stepsOpt : Option Nat) (dtOpt : Option ℚ) :
    run exp (mkEngine m) stepsOpt dtOpt = run exp (mkEngine m) stepsOpt dtOpt := rfl

/-- C7: the `division` transfer function is `coef / (1 + x)` with no
guard — defined for every `x ≠ -1` and raising (the error branch) at
`x = -1` — unlike the `ratio` kind, whose division is guarded by the
target's current value being nonzero. -/
theorem claim_C7_division_unguarded :
    (∀ x coef : ℚ, x ≠ -1 → division x coef = some (coef / (1 + x))) ∧
    (∀ coef : ℚ, division (-1) coef = none) ∧
    (∀ s v inf source_value contribution, inf.kind = Kind.ratio →
      stateGetD s v = 0 →
      kindModifier s v inf source_value contribution = 0) := by
  refine ⟨?_, ?_, ?_⟩
  · intro x coef hx
    have h1 : 1 + x ≠ 0 := fun h => hx (by linarith)
    simp [division, h1]
  · intro coef
    norm_num [division]
  · intro s v inf source_value contribution hk h0
    simp [kindModifier, hk, h0]

/-- C7 witness: the guarded branch of `division` evaluated away from
`-1`, the raise at `-1`, and the `ratio` zero-guard at a concrete
influence whose target currently holds `0`. -/
theorem claim_C7_witness :
    division 0 5 = some (5 / (1 + 0)) ∧ division (-1) 5 = none ∧
    kindModifier [] "v" ⟨"s", 2, Kind.ratio, TransferFunction.linear, true⟩ 9 99 = 0 :=
  ⟨claim_C7_division_unguarded.1 0 5 (by norm_num),
   claim_C7_division_unguarded.2.1 5,
   claim_C7_division_unguarded.2.2 [] "v"
     ⟨"s", 2, Kind.ratio, TransferFunction.linear, true⟩ 9 99 rfl rfl⟩

/-- C8: an enabled influence whose source string equals the target's
own bare component name resolves its source to the target's current
value, exactly as the literal `"self"` does, and the whole contribution
of the influence is identical in the two spellings. -/
theorem claim_C8_self_vs_bare (exp : ℚ → ℚ) (s : SimState) (v : String)
    (meta : VarMeta) (inf : InfluenceModel) (henabled : inf.enabled = true)
    (h : inf.from_ = lastComponent v) :
    resolveSource s v meta inf.from_ = stateGetD s v ∧
    resolveSource s v meta "self" = stateGetD s v ∧
    influenceTerm exp s v meta inf =
      influenceTerm exp s v meta { inf with from_ := "self" } := by
  obtain ⟨f0, coef0, kind0, fn0, en0⟩ := inf
  simp only at h
  subst h
  refine ⟨by simp [resolveSource], by simp [resolveSource], ?_⟩
  simp [influenceTerm, resolveSource, kindModifier]

/-- C8 witness: both spellings at a concrete state and influence. -/
theorem claim_C8_witness :
    resolveSource [("E.x", 7)] "E.x"
        ⟨CompType.state, none, none, [], "E", "x"⟩ "x" = stateGetD [("E.x", 7)] "E.x" ∧
    resolveSource [("E.x", 7)] "E.x"
        ⟨CompType.state, none, none, [], "E", "x"⟩ "self" = stateGetD [("E.x", 7)] "E.x" ∧
    influenceTerm (fun _ => 0) [("E.x", 7)] "E.x"
        ⟨CompType.state, none, none, [], "E", "x"⟩
        ⟨"x", 2, Kind.positive, TransferFunction.linear, true⟩ =
      influenceTerm (fun _ => 0) [("E.x", 7)] "E.x"
        ⟨CompType.state, none, none, [], "E", "x"⟩
        ⟨"self", 2, Kind.positive, TransferFunction.linear, true⟩ :=
  claim_C8_self_vs_bare (fun _ => 0) [("E.x", 7)] "E.x"
    ⟨CompType.state, none, none, [], "E", "x"⟩
    ⟨"x", 2, Kind.positive, TransferFunction.linear, true⟩ rfl (by simp [lastComponent, splitDots])

theorem set_parameter_unknown_iff (e : SimulationEngine) (v : String) (x : ℚ) :
    set_parameter e v x = .error (.unknownVariable v) ↔
      List.lookup v e.state = none := by
  constructor
  · intro h
    rcases hl : List.lookup v e.state with _ | w
    · rfl
    · exfalso
      simp only [set_parameter, hl] at h
      rcases hm : varMetadata e.model v with _ | meta <;> simp only [hm] at h <;>
        simp at h
  · intro h
    simp only [set_parameter, h]

theorem set_influence_coef_spec (e : SimulationEngine) (t s : String) (c : ℚ)
    (hent : (e.model.entities.map Prod.fst).Nodup)
    (hcomp : ∀ p ∈ e.model.entities, (p.2.components.map Prod.fst).Nodup) :
    match varMetadata e.model t with
    | none => set_influence_coef e t s c = .error (.unknownVariable t)
    | some meta =>
      if meta.influences.any (fun inf => inf.from_ = s) then
        ∃ e1, set_influence_coef e t s c = .ok e1
      else set_influence_coef e t s c = .error (.noSuchInfluence t s) := by
  rcases hm : varMetadata e.model t with _ | meta
  · simp only [set_influence_coef, hm]
  · obtain ⟨ent, comp, hle, hlc, -, -, -, hinfs, -⟩ :=
      varMetadata_coherent e.model t meta hent hcomp hm
    by_cases ha : meta.influences.any (fun inf => inf.from_ = s) = true
    · simp only [ha, if_true]
      have hsome : (replaceFirstInfluence s
          (fun inf => { inf with coef := c }) comp.influences).isSome = true := by
        rw [replaceFirstInfluence_isSome, hinfs, ha]
      obtain ⟨newInfs, hr⟩ := Option.isSome_iff_exists.mp hsome
      exact ⟨{ e with model := updateInfluences e.model meta.entity meta.component newInfs },
        by simp only [set_influence_coef, hm, ha, if_true, hle, hlc, hr]⟩
    · have ha2 : meta.influences.any (fun inf => inf.from_ = s) = false :=
        Bool.eq_false_iff.mpr ha
      simp only [ha2, Bool.false_eq_true, if_false]
      simp only [set_influence_coef, hm, ha2, Bool.false_eq_true, if_false]

theorem toggle_influence_spec (e : SimulationEngine) (t s : String) (b : Bool)
    (hent : (e.model.entities.map Prod.fst).Nodup)
    (hcomp : ∀ p ∈ e.model.entities, (p.2.components.map Prod.fst).Nodup) :
    match varMetadata e.model t with
    | none => toggle_influence e t s b = .error (.unknownVariable t)
    | some meta =>
      if meta.influences.any (fun inf => inf.from_ = s) then
        ∃ e1, toggle_influence e t s b = .ok e1
      else toggle_influence e t s b = .error (.noSuchInfluence t s) := by
  rcases hm : varMetadata e.model t with _ | meta
  · simp only [toggle_influence, hm]
  · obtain ⟨ent, comp, hle, hlc, -, -, -, hinfs, -⟩ :=
      varMetadata_coherent e.model t meta hent hcomp hm
    by_cases ha : meta.influences.any (fun inf => inf.from_ = s) = true
    · simp only [ha, if_true]
      have hsome : (replaceFirstInfluence s
          (fun inf => { inf with enabled := b }) comp.influences).isSome = true := by
        rw [replaceFirstInfluence_isSome, hinfs, ha]
      obtain ⟨newInfs, hr⟩ := Option.isSome_iff_exists.mp hsome
      exact ⟨{ e with model := updateInfluences e.model meta.entity meta.component newInfs },
        by simp only [toggle_influence, hm, hle, hlc, hr]⟩
    · have ha2 : meta.influences.any (fun inf => inf.from_ = s) = false :=
        Bool.eq_false_iff.mpr ha
      simp only [ha2, Bool.false_eq_true, if_false]
      have hnone : replaceFirstInfluence s
          (fun inf => { inf with enabled := b }) comp.influences = none := by
        rw [← Option.not_isSome_iff_eq_none, replaceFirstInfluence_isSome, hinfs, ha2]
        simp
      simp only [toggle_influence, hm, hle, hlc, hnone]

/-- C6: error-condition characterisation — `set_parameter` raises
`UnknownVariable` exactly when the variable is not a state key;
`set_influence_coef`/`toggle_influence` raise `UnknownVariable` exactly
when the target has no metadata entry, and `NoSuchInfluence` exactly
when the target exists but no influence's source string equals the
given source; `get_influences_for` returns `[]` for an unknown
variable; and source resolution inside derivative computation treats a
dangling qualified or bare reference as `0.0` (and an influence whose
source resolves to `0` never raises). -/
theorem claim_C6_error_handling (exp : ℚ → ℚ) (e : SimulationEngine)
    (hent : (e.model.entities.map Prod.fst).Nodup)
    (hcomp : ∀ p ∈ e.model.entities, (p.2.components.map Prod.fst).Nodup) :
    (∀ v x, set_parameter e v x = .error (.unknownVariable v) ↔
      List.lookup v e.state = none) ∧
    (∀ t s c, set_influence_coef e t s c = .error (.unknownVariable t) ↔
      varMetadata e.model t = none) ∧
    (∀ t s c, set_influence_coef e t s c = .error (.noSuchInfluence t s) ↔
      ∃ meta, varMetadata e.model t = some meta ∧
        ∀ inf ∈ meta.influences, inf.from_ ≠ s) ∧
    (∀ t s b, toggle_influence e t s b = .error (.unknownVariable t) ↔
      varMetadata e.model t = none) ∧
    (∀ t s b, toggle_influence e t s b = .error (.noSuchInfluence t s) ↔
      ∃ meta, varMetadata e.model t = some meta ∧
        ∀ inf ∈ meta.influences, inf.from_ ≠ s) ∧
    (∀ v, varMetadata e.model v = none → get_influences_for e v = []) ∧
    (∀ st v meta src, containsDot src = true →
      ¬(src = "self" ∨ src = lastComponent v) → List.lookup src st = none →
      resolveSource st v meta src = 0) ∧
    (∀ st v meta src, containsDot src = false →
      ¬(src = "self" ∨ src = lastComponent v) →
      List.lookup (meta.entity ++ "." ++ src) st = none →
      resolveSource st v meta src = 0) ∧
    (∀ st v meta inf, resolveSource st v meta inf.from_ = 0 →
      (influenceTerm exp st v meta inf).isSome = true) := by
  have hcoef : ∀ t s c,
      (set_influence_coef e t s c = .error (.unknownVariable t) ↔
        varMetadata e.model t = none) ∧
      (set_influence_coef e t s c = .error (.noSuchInfluence t s) ↔
        ∃ meta, varMetadata e.model t = some meta ∧
          ∀ inf ∈ meta.influences, inf.from_ ≠ s) := by
    intro t s c
    have hspec := set_influence_coef_spec e t s c hent hcomp
    rcases hm : varMetadata e.model t with _ | meta <;> rw [hm] at hspec <;>
      dsimp only at hspec
    · refine ⟨by simp [hspec], ?_⟩
      rw [hspec]
      simp
    · by_cases ha : meta.influences.any (fun inf => inf.from_ = s) = true
      · rw [if_pos ha] at hspec
        obtain ⟨e1, h1⟩ := hspec
        refine ⟨by simp [h1], ?_⟩
        rw [h1]
        constructor
        · intro hcontra
          exact absurd hcontra (by simp)
        · rintro ⟨meta2, hm2, hall⟩
          injection hm2 with hm3
          subst hm3
          obtain ⟨inf, hmem, hsrc⟩ := List.any_eq_true.mp ha
          exact absurd (of_decide_eq_true hsrc) (hall inf hmem)
      · have ha2 := Bool.eq_false_iff.mpr ha
        rw [ha2] at hspec
        rw [if_neg (by simp)] at hspec
        refine ⟨by simp [hspec], ?_⟩
        rw [hspec]
        simp only [Except.error.injEq, SimError.noSuchInfluence.injEq, true_iff]
        refine ⟨meta, rfl, fun inf hmem hsrc => ?_⟩
        have : meta.influences.any (fun inf => inf.from_ = s) = true :=
          List.any_eq_true.mpr ⟨inf, hmem, decide_eq_true hsrc⟩
        rw [this] at ha2
        exact absurd ha2 (by simp)
  have htog : ∀ t s b,
      (toggle_influence e t s b = .error (.unknownVariable t) ↔
        varMetadata e.model t = none) ∧
      (toggle_influence e t s b = .error (.noSuchInfluence t s) ↔
        ∃ meta, varMetadata e.model t = some meta ∧
          ∀ inf ∈ meta.influences, inf.from_ ≠ s) := by
    intro t s b
    have hspec := toggle_influence_spec e t s b hent hcomp
    rcases hm : varMetadata e.model t with _ | meta <;> rw [hm] at hspec <;>
      dsimp only at hspec
    · refine ⟨by simp [hspec], ?_⟩
      rw [hspec]
      simp
    · by_cases ha : meta.influences.any (fun inf => inf.from_ = s) = true
      · rw [if_pos ha] at hspec
        obtain ⟨e1, h1⟩ := hspec
        refine ⟨by simp [h1], ?_⟩
        rw [h1]
        constructor
        · intro hcontra
          exact absurd hcontra (by simp)
        · rintro ⟨meta2, hm2, hall⟩
          injection hm2 with hm3
          subst hm3
          obtain ⟨inf, hmem, hsrc⟩ := List.any_eq_true.mp ha
          exact absurd (of_decide_eq_true hsrc) (hall inf hmem)
      · have ha2 := Bool.eq_false_iff.mpr ha
        rw [ha2] at hspec
        rw [if_neg (by simp)] at hspec
        refine ⟨by simp [hspec], ?_⟩
        rw [hspec]
        simp only [Except.error.injEq, SimError.noSuchInfluence.injEq, true_iff]
        refine ⟨meta, rfl, fun inf hmem hsrc => ?_⟩
        have : meta.influences.any (fun inf => inf.from_ = s) = true :=
          List.any_eq_true.mpr ⟨inf, hmem, decide_eq_true hsrc⟩
        rw [this] at ha2
        exact absurd ha2 (by simp)
  refine ⟨set_parameter_unknown_iff e, fun t s c => (hcoef t s c).1,
    fun t s c => (hcoef t s c).2, fun t s b => (htog t s b).1,
    fun t s b => (htog t s b).2, ?_, ?_, ?_, ?_⟩
  · intro v h
    simp [get_influences_for, h]
  · intro st v meta src hdot hns hmiss
    simp only [resolveSource, if_neg hns, hdot, if_true, stateGetD, hmiss]
    rfl
  · intro st v meta src hdot hns hmiss
    rw [resolveSource, if_neg hns, if_neg (by simp [hdot])]
    simp [stateGetD, hmiss]
  · intro st v meta inf h0
    rcases hfn : inf.function with _ | _ | _ | _ <;>
      simp [influenceTerm, h0, applyInfluenceFunction, hfn, division]

/-- The spec's bounds predicate: whenever a min (resp. max) bound is
declared, the value is at least (resp. at most) that bound. -/
def BoundsOK (mn mx : Option ℚ) (val : ℚ) : Prop :=
  (∀ lo, mn = some lo → lo ≤ val) ∧ (∀ hi, mx = some hi → val ≤ hi)

/-- Every value stored in the state for a tracked variable satisfies
that variable's declared bounds. -/
def StateInB (m : SystemModel) (st : SimState) : Prop :=
  ∀ k meta val, varMetadata m k = some meta → List.lookup k st = some val →
    BoundsOK meta.min meta.max val

/-- §6's producer guarantee: every component's initial value respects
the component's own declared bounds. -/
def InitRespectsBounds (m : SystemModel) : Prop :=
  ∀ p ∈ initPairs m, BoundsOK p.2.2.min p.2.2.max p.2.1

theorem varMetadata_eq_initPairs (m : SystemModel) (k : String) :
    varMetadata m k = (List.lookup k (initPairs m)).map Prod.snd :=
  lookup_map_snd Prod.snd (initPairs m) k

theorem lookup_initState_eq (m : SystemModel) (k : String) :
    List.lookup k (initState m) = (List.lookup k (initPairs m)).map Prod.fst :=
  lookup_map_snd Prod.fst (initPairs m) k

theorem initState_inB (m : SystemModel) (hR : InitRespectsBounds m) :
    StateInB m (initState m) := by
  intro k meta val hk hl
  rw [varMetadata_eq_initPairs] at hk
  rw [lookup_initState_eq] at hl
  rcases hq : List.lookup k (initPairs m) with _ | q <;> rw [hq] at hk hl
  · exact absurd hk (by simp)
  · simp only [Option.map_some', Option.some.injEq] at hk hl
    have hmem := mem_of_lookup_eq_some hq
    have := hR (k, q) hmem
    rw [hk, hl] at this
    exact this

theorem boundsWitness_of_varMetadata (m : SystemModel) (k : String) (meta : VarMeta)
    (hR : InitRespectsBounds m) (h : varMetadata m k = some meta) :
    ∃ ival, BoundsOK meta.min meta.max ival := by
  rw [varMetadata_eq_initPairs] at h
  rcases hq : List.lookup k (initPairs m) with _ | q <;> rw [hq] at h
  · exact absurd h (by simp)
  · simp only [Option.map_some', Option.some.injEq] at h
    have := hR (k, q) (mem_of_lookup_eq_some hq)
    rw [h] at this
    exact ⟨q.1, this⟩

theorem boundsOK_applyBounds (meta : VarMeta) (w v : ℚ)
    (hw : BoundsOK meta.min meta.max w) :
    BoundsOK meta.min meta.max (applyBounds meta v) := by
  obtain ⟨hlo, hhi⟩ := hw
  constructor
  · intro lo hlo2
    have h1 : lo ≤ w := hlo lo hlo2
    rcases hmx : meta.max with _ | hi
    · simp only [applyBounds, hlo2, hmx]
      exact le_max_left lo v
    · have h2 : w ≤ hi := hhi hi hmx
      simp only [applyBounds, hlo2, hmx]
      exact le_min (h1.trans h2) (le_max_left lo v)
  · intro hi hhi2
    rcases hmn : meta.min with _ | lo <;> simp only [applyBounds, hmn, hhi2] <;>
      exact min_le_left hi _

theorem stateInB_set_parameter (m : SystemModel) (e : SimulationEngine) (v : String)
    (x : ℚ) (e1 : SimulationEngine) (hm : e.model = m)
    (hR : InitRespectsBounds m) (h : set_parameter e v x = .ok e1)
    (hs : StateInB m e.state) : StateInB m e1.state := by
  subst hm
  obtain ⟨-, hsome, meta, hmeta, hstate⟩ := set_parameter_ok_char e v x e1 h
  intro k meta2 val hk hl
  rw [hstate, lookup_stateSet] at hl
  by_cases hkv : k = v
  · subst hkv
    rw [if_pos rfl] at hl
    rw [hk] at hmeta
    injection hmeta with hmeta2
    subst hmeta2
    rcases hw : List.lookup k e.state with _ | w <;> rw [hw] at hl
    · exact absurd hl (by simp)
    · simp only [Option.map_some', Option.some.injEq] at hl
      obtain ⟨ival, hival⟩ := boundsWitness_of_varMetadata e.model k meta2 hR hk
      rw [← hl]
      exact boundsOK_applyBounds meta2 ival x hival
  · rw [if_neg hkv] at hl
    exact hs k meta2 val hk hl

theorem stateInB_stepE (exp : ℚ → ℚ) (m : SystemModel) (e : SimulationEngine)
    (dt : ℚ) (e1 : SimulationEngine) (hm : e.model = m)
    (hwf : ((metaEntries m).map Prod.fst).Nodup)
    (hR : InitRespectsBounds m) (h : stepE exp e dt = some e1)
    (hs : StateInB m e.state) : StateInB m e1.state := by
  subst hm
  have hchar := (stepE_char exp e dt e1 hwf h).2
  intro k meta val hk hl
  have hc := hchar k meta hk
  obtain ⟨ival, hival⟩ := boundsWitness_of_varMetadata e.model k meta hR hk
  rcases ht : meta.type with _ | _ | _ <;> rw [ht] at hc <;> dsimp only at hc
  · obtain ⟨dv, hdv, hlook⟩ := hc
    rw [hlook] at hl
    rcases hw : List.lookup k e.state with _ | w <;> rw [hw] at hl
    · exact absurd hl (by simp)
    · simp only [Option.map_some', Option.some.injEq] at hl
      rw [← hl]
      exact boundsOK_applyBounds meta ival _ hival
  · obtain ⟨dv, hdv, hlook⟩ := hc
    rw [hlook] at hl
    rcases hw : List.lookup k e.state with _ | w <;> rw [hw] at hl
    · exact absurd hl (by simp)
    · simp only [Option.map_some', Option.some.injEq] at hl
      rw [← hl]
      exact boundsOK_applyBounds meta ival _ hival
  · rw [hc] at hl
    exact hs k meta val hk hl

theorem stateInB_runFrom (exp : ℚ → ℚ) (m : SystemModel) (dt : ℚ) (n : Nat)
    (e ef : SimulationEngine) (snaps : List SimState) (hm : e.model = m)
    (hwf : ((metaEntries m).map Prod.fst).Nodup)
    (hR : InitRespectsBounds m) (h : runFrom exp dt n e = some (ef, snaps))
    (hs : StateInB m e.state) :
    StateInB m ef.state ∧ ∀ snap ∈ snaps, StateInB m snap := by
  induction n generalizing e snaps with
  | zero =>
    simp only [runFrom, Option.some.injEq, Prod.mk.injEq] at h
    obtain ⟨rfl, rfl⟩ := h
    exact ⟨hs, by simp⟩
  | succ n ih =>
    rcases hstep : stepE exp e dt with _ | e2 <;>
      simp only [runFrom, hstep] at h
    · exact absurd h (by simp)
    · rcases hrun : runFrom exp dt n e2 with _ | p <;> rw [hrun] at h
      · exact absurd h (by simp)
      · obtain ⟨ef2, snaps2⟩ := p
        simp only [Option.some.injEq, Prod.mk.injEq] at h
        obtain ⟨rfl, rfl⟩ := h
        have hm2 : e2.model = m := by
          obtain ⟨d, -, rfl⟩ := stepE_some_inv exp e dt e2 hstep
          exact hm
        have hs2 : StateInB m e2.state :=
          stateInB_stepE exp m e dt e2 hm hwf hR hstep hs
        obtain ⟨hf, hsn⟩ := ih e2 snaps2 hm2 hrun hs2
        refine ⟨hf, fun snap hsnap => ?_⟩
        rcases List.mem_cons.mp hsnap with rfl | hsnap2
        · exact hs2
        · exact hsn snap hsnap2

/-- C3: for a model whose initial values respect their own declared
bounds, `set_parameter` clamps into `[min, max]` before writing, both
`set_parameter` and `step` preserve the bounds invariant, and every
snapshot of a `run`'s history (the initial snapshot included) keeps
every bounded variable inside its declared bounds. -/
theorem claim_C3_bounds_invariant (exp : ℚ → ℚ) (m : SystemModel)
    (hwf : ((metaEntries m).map Prod.fst).Nodup)
    (hR : InitRespectsBounds m) :
    (∀ e v x e1, e.model = m → set_parameter e v x = .ok e1 →
      ∃ meta, varMetadata m v = some meta ∧
        e1.state = stateSet e.state v (applyBounds meta x)) ∧
    (∀ e v x e1, e.model = m → set_parameter e v x = .ok e1 →
      StateInB m e.state → StateInB m e1.state) ∧
    (∀ e dt e1, e.model = m → stepE exp e dt = some e1 →
      StateInB m e.state → StateInB m e1.state) ∧
    (∀ stepsOpt dtOpt ef r, run exp (mkEngine m) stepsOpt dtOpt = some (ef, r) →
      ∀ snap ∈ r.history, StateInB m snap) := by
  refine ⟨?_, ?_, ?_, ?_⟩
  · intro e v x e1 hm h
    obtain ⟨-, -, meta, hmeta, hstate⟩ := set_parameter_ok_char e v x e1 h
    exact ⟨meta, hm ▸ hmeta, hstate⟩
  · intro e v x e1 hm h hs
    exact stateInB_set_parameter m e v x e1 hm hR h hs
  · intro e dt e1 hm h hs
    exact stateInB_stepE exp m e dt e1 hm hwf hR h hs
  · intro stepsOpt dtOpt ef r h snap hsnap
    rcases hrun : runFrom exp (dtOpt.getD (mkEngine m).model.simulation.dt)
        (stepsOpt.getD (mkEngine m).model.simulation.steps) (mkEngine m) with _ | p <;>
      simp only [run, hrun] at h
    · exact absurd h (by simp)
    · obtain ⟨ef2, snaps⟩ := p
      simp only [Option.some.injEq, Prod.mk.injEq] at h
      obtain ⟨rfl, rfl⟩ := h
      have hinit : StateInB m (mkEngine m).state := initState_inB m hR
      obtain ⟨-, hsn⟩ := stateInB_runFrom exp m _ _ (mkEngine m) ef2 snaps rfl hwf
        hR hrun hinit
      rcases List.mem_cons.mp hsnap with rfl | hsnap2
      · exact hinit
      · exact hsn snap hsnap2

/-- C3 witness: on the concrete scenario model, `set_parameter("E.x", 5)`
stores the clamped value `1` (the declared max), and the clamping
conjunct of the bounds-invariant theorem applies to it. -/
theorem claim_C3_witness :
    set_parameter (mkEngine Mex) "E.x" 5 = .ok ⟨Mex, [("E.x", 1)]⟩ ∧
    ∃ meta, varMetadata Mex "E.x" = some meta ∧
      (⟨Mex, [("E.x", 1)]⟩ : SimulationEngine).state =
        stateSet (mkEngine Mex).state "E.x" (applyBounds meta 5) := by
  have hwf : ((metaEntries Mex).map Prod.fst).Nodup := by
    simp [metaEntries, initPairs, Mex]
  have hR : InitRespectsBounds Mex := by
    intro p hp
    simp only [initPairs, Mex, List.flatMap_cons, List.map_cons, List.map_nil,
      List.flatMap_nil, List.append_nil, List.mem_singleton] at hp
    subst hp
    constructor <;> intro b hb <;> simp only [Option.some.injEq] at hb <;>
      rw [← hb] <;> norm_num
  have hok : set_parameter (mkEngine Mex) "E.x" 5 = .ok ⟨Mex, [("E.x", 1)]⟩ := by
    simp [set_parameter, mkEngine, initState, initPairs, Mex, varMetadata,
      metaEntries, List.lookup, stateSet]
  exact ⟨hok, (claim_C3_bounds_invariant (fun _ => 0) Mex hwf hR).1
    (mkEngine Mex) "E.x" 5 ⟨Mex, [("E.x", 1)]⟩ rfl hok⟩

/-- C6 witness: the unknown-variable characterisation of
`set_parameter` and the empty answer of `get_influences_for`, at the
concrete scenario model. -/
theorem claim_C6_witness :
    (set_parameter (mkEngine Mex) "nope" 0 = .error (.unknownVariable "nope") ↔
      List.lookup "nope" (mkEngine Mex).state = none) ∧
    (∀ v, varMetadata (mkEngine Mex).model v = none →
      get_influences_for (mkEngine Mex) v = []) := by
  have h := claim_C6_error_handling (fun _ => 0) (mkEngine Mex)
    (by simp [mkEngine, Mex]) (by simp [mkEngine, Mex])
  exact ⟨h.1 "nope" 0, h.2.2.2.2.2.1⟩

/-- C4: two-phase synchronous update — if a step succeeds, the model is
unchanged and every tracked variable's post-step value is determined
pointwise from the pre-step snapshot: `state` variables become
`clamp(current + dt * derivative)`, `computed` variables become
`clamp(current + derivative)` (no `dt` scaling), and `constant`
variables are untouched, with every derivative evaluated on the
unchanged pre-step state.  Because each variable's new value depends
only on the pre-step snapshot, the result is independent of the order
in which the variables are iterated. -/
theorem claim_C4_two_phase_update (exp : ℚ → ℚ) (e : SimulationEngine) (dt : ℚ)
    (e1 : SimulationEngine)
    (hwf : ((metaEntries e.model).map Prod.fst).Nodup)
    (h : stepE exp e dt = some e1) :
    e1.model = e.model ∧
    ∀ k meta, varMetadata e.model k = some meta →
      match meta.type with
      | .state => ∃ dv, computeDerivAux exp e.state k meta = some dv ∧
          List.lookup k e1.state =
            (List.lookup k e.state).map
              (fun _ => applyBounds meta (stateGetD e.state k + dt * dv))
      | .computed => ∃ dv, computeDerivAux exp e.state k meta = some dv ∧
          List.lookup k e1.state =
            (List.lookup k e.state).map
              (fun _ => applyBounds meta (stateGetD e.state k + dv))
      | .constant => List.lookup k e1.state = List.lookup k e.state :=
  stepE_char exp e dt e1 hwf h

/-- C4 witness: the characterisation applied to one concrete step of the
scenario model. -/
theorem claim_C4_witness :
    stepE (fun _ => 0) (mkEngine Mex) (1/10) = some ⟨Mex, [("E.x", 49/100)]⟩ ∧
    (⟨Mex, [("E.x", 49/100)]⟩ : SimulationEngine).model = (mkEngine Mex).model := by
  have hstep : stepE (fun _ => 0) (mkEngine Mex) (1/10) =
      some ⟨Mex, [("E.x", 49/100)]⟩ := by
    simp [stepE, derivPhase, Mex, mkEngine, computeDerivAux, influencesSum,
      influenceTerm, resolveSource, kindModifier, applyInfluenceFunction, linear,
      stateGetD, initState, initPairs, metaEntries, lastComponent, splitDots,
      containsDot, List.lookup, phase2Values, commitValues, stateSet, applyBounds]
    norm_num
  exact ⟨hstep, (claim_C4_two_phase_update (fun _ => 0) (mkEngine Mex) (1/10)
    ⟨Mex, [("E.x", 49/100)]⟩ (by simp [metaEntries, initPairs, Mex, mkEngine]) hstep).1⟩

theorem runFrom_constant_lookup (exp : ℚ → ℚ) (m : SystemModel) (dt : ℚ) (n : Nat)
    (e ef : SimulationEngine) (snaps : List SimState) (v : String) (meta : VarMeta)
    (hm : e.model = m) (hwf : ((metaEntries m).map Prod.fst).Nodup)
    (hmeta : varMetadata m v = some meta) (hconst : meta.type = CompType.constant)
    (h : runFrom exp dt n e = some (ef, snaps)) :
    List.lookup v ef.state = List.lookup v e.state ∧
    ∀ snap ∈ snaps, List.lookup v snap = List.lookup v e.state := by
  induction n generalizing e snaps with
  | zero =>
    simp only [runFrom, Option.some.injEq, Prod.mk.injEq] at h
    obtain ⟨rfl, rfl⟩ := h
    exact ⟨rfl, by simp⟩
  | succ n ih =>
    rcases hstep : stepE exp e dt with _ | e2 <;>
      simp only [runFrom, hstep] at h
    · exact absurd h (by simp)
    · rcases hrun : runFrom exp dt n e2 with _ | p <;> rw [hrun] at h
      · exact absurd h (by simp)
      · obtain ⟨ef2, snaps2⟩ := p
        simp only [Option.some.injEq, Prod.mk.injEq] at h
        obtain ⟨rfl, rfl⟩ := h
        have hm2 : e2.model = m := by
          obtain ⟨d, -, rfl⟩ := stepE_some_inv exp e dt e2 hstep
          exact hm
        have hpres : List.lookup v e2.state = List.lookup v e.state := by
          have hchar := (stepE_char exp e dt e2 (hm ▸ hwf) hstep).2 v meta (hm ▸ hmeta)
          rw [hconst] at hchar
          exact hchar
        obtain ⟨hf, hsn⟩ := ih e2 snaps2 hm2 hrun
        rw [hpres] at hf
        refine ⟨hf, fun snap hsnap => ?_⟩
        rcases List.mem_cons.mp hsnap with rfl | hsnap2
        · exact hpres
        · rw [hsn snap hsnap2, hpres]

/-- C9: `set_parameter` has no kind check — on a variable of any kind
(in particular `constant`) it succeeds exactly when the key exists,
clamps the value and writes it; `step` never updates constants, so a
constant's stored value survives every subsequent step and appears
unchanged in every later history snapshot and in the final state. -/
theorem claim_C9_constant_mutable_via_set_parameter (exp : ℚ → ℚ) (m : SystemModel)
    (v : String) (meta : VarMeta)
    (hwf : ((metaEntries m).map Prod.fst).Nodup)
    (hmeta : varMetadata m v = some meta) :
    (∀ e x, e.model = m → (List.lookup v e.state).isSome →
      ∃ e1, set_parameter e v x = .ok e1 ∧ e1.model = m ∧
        e1.state = stateSet e.state v (applyBounds meta x)) ∧
    (meta.type = CompType.constant →
      (∀ e dt e1, e.model = m → stepE exp e dt = some e1 →
        List.lookup v e1.state = List.lookup v e.state) ∧
      (∀ e stepsOpt dtOpt ef r, e.model = m → run exp e stepsOpt dtOpt = some (ef, r) →
        (∀ snap ∈ r.history, List.lookup v snap = List.lookup v e.state) ∧
        List.lookup v r.final_state = List.lookup v e.state)) := by
  constructor
  · intro e x hm hsome
    obtain ⟨w, hw⟩ := Option.isSome_iff_exists.mp hsome
    subst hm
    refine ⟨{ e with state := stateSet e.state v (applyBounds meta x) }, ?_, rfl, rfl⟩
    simp only [set_parameter, hw, hmeta]
    rfl
  · intro hconst
    constructor
    · intro e dt e1 hm hstep
      have hchar := (stepE_char exp e dt e1 (hm ▸ hwf) hstep).2 v meta (hm ▸ hmeta)
      rw [hconst] at hchar
      exact hchar
    · intro e stepsOpt dtOpt ef r hm hrun
      rcases hrf : runFrom exp (dtOpt.getD e.model.simulation.dt)
          (stepsOpt.getD e.model.simulation.steps) e with _ | p <;>
        simp only [run, hrf] at hrun
      · exact absurd hrun (by simp)
      · obtain ⟨ef2, snaps⟩ := p
        simp only [Option.some.injEq, Prod.mk.injEq] at hrun
        obtain ⟨rfl, rfl⟩ := hrun
        obtain ⟨hf, hsn⟩ := runFrom_constant_lookup exp m _ _ e ef2 snaps v meta
          hm hwf hmeta hconst hrf
        refine ⟨fun snap hsnap => ?_, hf⟩
        rcases List.mem_cons.mp hsnap with rfl | hsnap2
        · rfl
        · exact hsn snap hsnap2

/-- The spec's second concrete model: `A.level` (state, initial 0.2, no
bounds) driven by the constant `B.driver` (initial 0.8) through a
positive linear influence with coefficient 0.5. -/
def Mconst : SystemModel :=
  ⟨[("A", ⟨[("level", ⟨.state, 1/5, none, none,
      [⟨"B.driver", 1/2, .positive, .linear, true⟩]⟩)]⟩),
    ("B", ⟨[("driver", ⟨.constant, 4/5, none, none, []⟩)]⟩)], ⟨1, 2⟩⟩

/-- C9 witness: `set_parameter` succeeds on the constant `B.driver`
exactly as on a state variable, writing the (unclamped, no bounds)
value. -/
theorem claim_C9_witness :
    ∃ e1, set_parameter (mkEngine Mconst) "B.driver" 9 = .ok e1 ∧
      e1.model = Mconst ∧
      e1.state = stateSet (mkEngine Mconst).state "B.driver"
        (applyBounds ⟨CompType.constant, none, none, [], "B", "driver"⟩ 9) := by
  have hwf : ((metaEntries Mconst).map Prod.fst).Nodup := by
    simp [metaEntries, initPairs, Mconst]
  have hmeta : varMetadata Mconst "B.driver" =
      some ⟨CompType.constant, none, none, [], "B", "driver"⟩ := by
    simp [varMetadata, metaEntries, initPairs, Mconst, List.lookup]
  exact (claim_C9_constant_mutable_via_set_parameter (fun _ => 0) Mconst "B.driver"
    ⟨CompType.constant, none, none, [], "B", "driver"⟩ hwf hmeta).1
    (mkEngine Mconst) 9 rfl (by simp [mkEngine, initState, initPairs, Mconst, List.lookup])

/-- C10: when a target's influence list is `pre ++ inf :: post` with no
influence in `pre` matching the source and `inf` matching it,
`set_influence_coef` (resp. `toggle_influence`) succeeds, leaves the
state untouched, and replaces exactly `inf` by a copy with the new
coefficient (resp. enabled flag): every influence in `pre` and `post`
(later duplicates of the same source included) and every other field of
`inf` are unchanged. -/
theorem claim_C10_first_match_only (e : SimulationEngine) (target source : String)
    (meta : VarMeta)
    (hent : (e.model.entities.map Prod.fst).Nodup)
    (hcomp : ∀ p ∈ e.model.entities, (p.2.components.map Prod.fst).Nodup)
    (hfull : ((metaEntries e.model).map Prod.fst).Nodup)
    (hm : varMetadata e.model target = some meta)
    (pre : List InfluenceModel) (inf : InfluenceModel) (post : List InfluenceModel)
    (hsplit : meta.influences = pre ++ inf :: post)
    (hpre : ∀ i ∈ pre, i.from_ ≠ source) (hinf : inf.from_ = source) :
    (∀ c, ∃ e1, set_influence_coef e target source c = .ok e1 ∧
      e1.state = e.state ∧
      varMetadata e1.model target =
        some { meta with influences := pre ++ { inf with coef := c } :: post }) ∧
    (∀ b, ∃ e1, toggle_influence e target source b = .ok e1 ∧
      e1.state = e.state ∧
      varMetadata e1.model target =
        some { meta with influences := pre ++ { inf with enabled := b } :: post }) := by
  obtain ⟨ent, comp, hle, hlc, htype, hmin, hmax, hinfs, htarget⟩ :=
    varMetadata_coherent e.model target meta hent hcomp hm
  have ha : meta.influences.any (fun i => i.from_ = source) = true :=
    List.any_eq_true.mpr ⟨inf, by rw [hsplit]; simp, decide_eq_true hinf⟩
  constructor
  · intro c
    have hr : replaceFirstInfluence source (fun i => { i with coef := c })
        comp.influences = some (pre ++ { inf with coef := c } :: post) := by
      rw [hinfs, hsplit]
      exact replaceFirstInfluence_split source _ pre inf post hpre hinf
    refine ⟨(⟨updateInfluences e.model meta.entity meta.component
        (pre ++ { inf with coef := c } :: post), e.state⟩ : SimulationEngine),
      ?_, rfl, ?_⟩
    · simp only [set_influence_coef, hm, ha, if_true, hle, hlc, hr]
    · have hafter := varMetadata_after_update e.model meta.entity meta.component
        ent comp (pre ++ { inf with coef := c } :: post) hfull hle hlc
      rw [htarget]
      rw [hafter, htype, hmin, hmax]
  · intro b
    have hr : replaceFirstInfluence source (fun i => { i with enabled := b })
        comp.influences = some (pre ++ { inf with enabled := b } :: post) := by
      rw [hinfs, hsplit]
      exact replaceFirstInfluence_split source _ pre inf post hpre hinf
    refine ⟨(⟨updateInfluences e.model meta.entity meta.component
        (pre ++ { inf with enabled := b } :: post), e.state⟩ : SimulationEngine),
      ?_, rfl, ?_⟩
    · simp only [toggle_influence, hm, hle, hlc, hr]
    · have hafter := varMetadata_after_update e.model meta.entity meta.component
        ent comp (pre ++ { inf with enabled := b } :: post) hfull hle hlc
      rw [htarget]
      rw [hafter, htype, hmin, hmax]

/-- A model whose component has two influences with the same source
string, to exercise the first-match behaviour. -/
def Mdup : SystemModel :=
  ⟨[("E", ⟨[("x", ⟨.state, 0, none, none,
      [⟨"s", 1, .positive, .linear, true⟩,
       ⟨"s", 2, .negative, .sigmoid, true⟩]⟩)]⟩)], ⟨1, 1⟩⟩

/-- C10 witness: on the duplicate-source model, changing the coefficient
touches only the first matching influence; the second influence from the
same source is untouched. -/
theorem claim_C10_witness :
    ∃ e1, set_influence_coef (mkEngine Mdup) "E.x" "s" 5 = .ok e1 ∧
      e1.state = (mkEngine Mdup).state ∧
      varMetadata e1.model "E.x" =
        some ⟨CompType.state, none, none,
          [⟨"s", 5, .positive, .linear, true⟩,
           ⟨"s", 2, .negative, .sigmoid, true⟩], "E", "x"⟩ := by
  have h := (claim_C10_first_match_only (mkEngine Mdup) "E.x" "s"
    ⟨CompType.state, none, none,
      [⟨"s", 1, .positive, .linear, true⟩,
       ⟨"s", 2, .negative, .sigmoid, true⟩], "E", "x"⟩
    (by simp [mkEngine, Mdup])
    (by simp [mkEngine, Mdup])
    (by simp [metaEntries, initPairs, Mdup, mkEngine])
    (by simp [varMetadata, metaEntries, initPairs, Mdup, mkEngine, List.lookup])
    [] ⟨"s", 1, .positive, .linear, true⟩ [⟨"s", 2, .negative, .sigmoid, true⟩]
    rfl (by simp) rfl).1 5
  exact h
